import Mathlib

/-!
Verification of the MusicXML simplifier (`musicxml_simplifier.py`).

The program rewrites the serialized MusicXML text line by line.  The shallow
embedding models one physical line of the file as a `Line` record that carries
exactly the features the source code tests with substring checks
(`'<note' in line`, `'<duration>1</duration>' in line`, ...).  Each model line
corresponds to one pretty-printed XML element, the usual shape of the files the
tool processes; the `id` field stands for the otherwise uninterpreted text of
the line so that "a line is kept unchanged" is a meaningful statement.

Later sections embed the range transposer, the source-key corrector, the
courtesy-accidental pass, the fingering passes and the structural validator,
each over a structured view of the same content.
-/

namespace MusicXML

/-- The seven pitch letters A-G recognised by `<step>([A-G])</step>`. -/
inductive Step where
  | A | B | C | D | E | F | G
deriving DecidableEq, Repr

/-- Note type names occurring in `<type>...</type>` elements, as far as the
simplifier distinguishes them; every other value is `other`. -/
inductive NoteType where
  | eighth | quarter | half | other
deriving DecidableEq, Repr

/-- One physical line of the MusicXML file, reduced to the features the
simplifier tests by substring search:
* `isMeasureStart` : the line contains `<measure number=`;
* `isNoteOpen` : the line contains `<note`;
* `isNoteClose` : the line contains `</note>`;
* `noteType` : `some t` when the line contains `<type>t</type>`;
* `hasDot` : the line contains a self-closed dot element (`<dot` and `/>`);
* `hasPitch` : the line contains `<pitch>`;
* `hasRest` : the line contains `<rest/>`;
* `duration` : `some n` when the line contains `<duration>n</duration>`;
* `isBeam` : the line contains `<beam number=`;
* `isSlur` : the line contains `<slur` with `type="start"` or `type="stop"`;
* `id` : stands for the remaining text of the line. -/
structure Line where
  id : Nat := 0
  isMeasureStart : Bool := false
  isNoteOpen : Bool := false
  isNoteClose : Bool := false
  noteType : Option NoteType := none
  hasDot : Bool := false
  hasPitch : Bool := false
  hasRest : Bool := false
  duration : Option Nat := none
  isBeam : Bool := false
  isSlur : Bool := false
deriving DecidableEq, Repr

/-- The duration values carried by a list of lines, in order. -/
def durLines (ls : List Line) : List Nat := ls.filterMap (·.duration)

/-- Total duration carried by a list of lines. -/
def sumDur (ls : List Line) : Nat := (durLines ls).sum

/-- `_is_eighth_note_block`: the block text contains `<type>eighth</type>`
and `<pitch>`. -/
def isEighthNoteBlock (b : List Line) : Bool :=
  b.any (fun l => l.noteType == some .eighth) && b.any (·.hasPitch)

/-- `_is_eighth_rest_block`: the block text contains `<type>eighth</type>`
and `<rest/>`. -/
def isEighthRestBlock (b : List Line) : Bool :=
  b.any (fun l => l.noteType == some .eighth) && b.any (·.hasRest)

/-- `_is_dotted_quarter_block`: the block text contains `<type>quarter</type>`,
a dot element and `<pitch>`. -/
def isDottedQuarterBlock (b : List Line) : Bool :=
  b.any (fun l => l.noteType == some .quarter) && b.any (·.hasDot)
    && b.any (·.hasPitch)

/-- `_is_eighth_note_start(lines, i)`: some line in the window
`lines[i..i+10)` contains `<type>eighth</type>`. -/
def isEighthNoteStart (ls : List Line) : Bool :=
  (ls.take 10).any (fun l => l.noteType == some .eighth)

/-- Inner loop of `_is_dotted_quarter_start`: scanning at most `n` lines,
look for a `<type>quarter</type>` line followed within 5 lines (itself
included) by a dot element. -/
def dqPattern : Nat → List Line → Bool
  | 0, _ => false
  | _ + 1, [] => false
  | n + 1, l :: rest =>
    (l.noteType == some .quarter && ((l :: rest).take 5).any (·.hasDot))
      || dqPattern n rest

/-- `_is_dotted_quarter_start(lines, i)`: window of 15 lines. -/
def isDottedQuarterStart (ls : List Line) : Bool := dqPattern 15 ls

/-- Body phase of `_extract_note_block`: collect lines up to and including the
first one containing `</note>`. -/
def extractBody : List Line → List Line × List Line
  | [] => ([], [])
  | l :: rest =>
    if l.isNoteClose then ([l], rest)
    else
      let p := extractBody rest
      (l :: p.1, p.2)

/-- `_extract_note_block(lines, start)`: skip (but keep) lines until one
containing `<note`, then collect until the line containing `</note>`.
Returns the block and the remaining lines. -/
def extractNoteBlock : List Line → List Line × List Line
  | [] => ([], [])
  | l :: rest =>
    if l.isNoteOpen then
      let p := extractBody rest
      (l :: p.1, p.2)
    else
      let p := extractNoteBlock rest
      (l :: p.1, p.2)

theorem extractBody_snd_le (ls : List Line) :
    (extractBody ls).2.length ≤ ls.length := by
  induction ls with
  | nil => simp [extractBody]
  | cons l rest ih =>
    simp only [extractBody]
    split
    · simp
    · simpa using Nat.le_succ_of_le ih

theorem extractNoteBlock_snd_le (ls : List Line) :
    (extractNoteBlock ls).2.length ≤ ls.length := by
  induction ls with
  | nil => simp [extractNoteBlock]
  | cons l rest ih =>
    simp only [extractNoteBlock]
    split
    · simpa using Nat.le_succ_of_le (extractBody_snd_le rest)
    · simpa using Nat.le_succ_of_le ih

theorem extractNoteBlock_snd_lt (ls : List Line) (h : ls ≠ []) :
    (extractNoteBlock ls).2.length < ls.length := by
  cases ls with
  | nil => exact absurd rfl h
  | cons l rest =>
    simp only [extractNoteBlock]
    split
    · simpa using Nat.lt_succ_of_le (extractBody_snd_le rest)
    · simpa using Nat.lt_succ_of_le (extractNoteBlock_snd_le rest)

/-- Per-line action of `_convert_to_quarter_note`: duration 1 becomes 2, type
eighth becomes quarter, beam and slur lines are dropped, in the if/elif order
of the source. -/
def convQNLine (l : Line) : Option Line :=
  if l.duration == some 1 then some { l with duration := some 2 }
  else if l.noteType == some .eighth then some { l with noteType := some .quarter }
  else if l.isBeam then none
  else if l.isSlur then none
  else some l

/-- `_convert_to_quarter_note`. -/
def convertToQuarterNote (b : List Line) : List Line := b.filterMap convQNLine

/-- Per-line action of `_convert_to_quarter_rest`: like the note conversion
but slur lines are kept. -/
def convQRLine (l : Line) : Option Line :=
  if l.duration == some 1 then some { l with duration := some 2 }
  else if l.noteType == some .eighth then some { l with noteType := some .quarter }
  else if l.isBeam then none
  else some l

/-- `_convert_to_quarter_rest`. -/
def convertToQuarterRest (b : List Line) : List Line := b.filterMap convQRLine

/-- `_convert_to_half_note` with its `duration_changed` flag: duration 3
becomes 4; a quarter type line is upgraded to half only once the duration has
been rewritten; dot, beam and slur lines are dropped. -/
def convertToHalfNoteGo (flag : Bool) : List Line → List Line
  | [] => []
  | l :: rest =>
    if l.duration == some 3 then
      { l with duration := some 4 } :: convertToHalfNoteGo true rest
    else if l.noteType == some .quarter && flag then
      { l with noteType := some .half } :: convertToHalfNoteGo flag rest
    else if l.hasDot then convertToHalfNoteGo flag rest
    else if l.isBeam then convertToHalfNoteGo flag rest
    else if l.isSlur then convertToHalfNoteGo flag rest
    else l :: convertToHalfNoteGo flag rest

def convertToHalfNote (b : List Line) : List Line := convertToHalfNoteGo false b

/-- `_remove_beams`: drop every beam line from the content. -/
def removeBeams (ls : List Line) : List Line := ls.filter (fun l => !l.isBeam)

/-- The scanning loop of `apply_downbeat_rules`, threading the two counters the
method keeps on `self` (`measures_processed`, `eighth_notes_converted`).
At the head of each iteration the current line is tested for
`<measure number=`; the dotted-quarter lookahead is tried first, then the
eighth-note lookahead; each merge skips the swallowed second block and adds 2
to the conversion counter. -/
def downbeatLoop (m e : Nat) : List Line → (Nat × Nat) × List Line
  | [] => ((m, e), [])
  | l :: rest =>
    let m1 := if l.isMeasureStart then m + 1 else m
    if isDottedQuarterStart (l :: rest) then
      if h1 : (extractNoteBlock (l :: rest)).2 = [] then
        ((m1, e), (extractNoteBlock (l :: rest)).1)
      else
        if isDottedQuarterBlock (extractNoteBlock (l :: rest)).1
            && isEighthNoteBlock (extractNoteBlock (extractNoteBlock (l :: rest)).2).1 then
          let p := downbeatLoop m1 (e + 2)
            (extractNoteBlock (extractNoteBlock (l :: rest)).2).2
          (p.1, convertToHalfNote (extractNoteBlock (l :: rest)).1 ++ p.2)
        else
          let p := downbeatLoop m1 e (extractNoteBlock (l :: rest)).2
          (p.1, (extractNoteBlock (l :: rest)).1 ++ p.2)
    else if isEighthNoteStart (l :: rest) then
      if h1 : (extractNoteBlock (l :: rest)).2 = [] then
        ((m1, e), (extractNoteBlock (l :: rest)).1)
      else
        if isEighthNoteBlock (extractNoteBlock (l :: rest)).1
            && (isEighthNoteBlock (extractNoteBlock (extractNoteBlock (l :: rest)).2).1
              || isEighthRestBlock (extractNoteBlock (extractNoteBlock (l :: rest)).2).1) then
          let p := downbeatLoop m1 (e + 2)
            (extractNoteBlock (extractNoteBlock (l :: rest)).2).2
          (p.1, convertToQuarterNote (extractNoteBlock (l :: rest)).1 ++ p.2)
        else if isEighthRestBlock (extractNoteBlock (l :: rest)).1
            && isEighthNoteBlock (extractNoteBlock (extractNoteBlock (l :: rest)).2).1 then
          let p := downbeatLoop m1 (e + 2)
            (extractNoteBlock (extractNoteBlock (l :: rest)).2).2
          (p.1, convertToQuarterRest (extractNoteBlock (l :: rest)).1 ++ p.2)
        else
          let p := downbeatLoop m1 e (extractNoteBlock (l :: rest)).2
          (p.1, (extractNoteBlock (l :: rest)).1 ++ p.2)
    else
      let p := downbeatLoop m1 e rest
      (p.1, l :: p.2)
termination_by ls => ls.length
decreasing_by
  all_goals first
    | (have h := extractNoteBlock_snd_lt (l :: rest) (by simp)
       have h3 := extractNoteBlock_snd_lt (extractNoteBlock (l :: rest)).2 h1
       omega)
    | (have h := extractNoteBlock_snd_lt (l :: rest) (by simp)
       omega)
    | simp

/-- The rewritten content of `apply_downbeat_rules` viewed as a pure function:
run the loop and strip the beam lines. -/
def applyDownbeatRules (ls : List Line) : List Line :=
  removeBeams (downbeatLoop 0 0 ls).2

/-- The counters of `MusicXMLSimplifier.__init__`, the mutable per-object
state the passes update (`self.measures_processed`, ...). -/
structure SimpState where
  rules_applied : List String := []
  measures_processed : Nat := 0
  eighth_notes_converted : Nat := 0
  rehearsal_marks_fixed : Nat := 0
  multimeasure_rests_removed : Nat := 0
  page_system_breaks_removed : Nat := 0
  courtesy_accidentals_added : Nat := 0
  trumpet_fingerings_added : Nat := 0
deriving DecidableEq, Repr

/-- `apply_downbeat_rules` as it actually executes on the object: it reads and
mutates the counters stored on `self` and returns only the rewritten content.
The Lean embedding threads the object state explicitly. -/
def applyDownbeatRulesS (s : SimpState) (ls : List Line) : SimpState × List Line :=
  let r := downbeatLoop s.measures_processed s.eighth_notes_converted ls
  ({ s with measures_processed := r.1.1, eighth_notes_converted := r.1.2 },
   removeBeams r.2)

/-! ### Well-formed note blocks

`apply_downbeat_rules` scans the raw line list; the lemmas below describe its
behaviour on contents that decompose into well-formed note blocks, the shape
every pretty-printed MusicXML note has. -/

/-- A line carries `<type>eighth</type>` somewhere in the list. -/
def hasEighthType (b : List Line) : Bool :=
  b.any (fun l => l.noteType == some .eighth)

/-- Body of a well-formed block: zero or more inner lines (no `<note`,
no `</note>`) followed by exactly one closing line. -/
def goodBody : List Line → Bool
  | [] => false
  | [c] => c.isNoteClose && !c.isNoteOpen
  | l :: rest => !l.isNoteClose && !l.isNoteOpen && goodBody rest

/-- A well-formed note block: an opening `<note` line, inner lines, and a
closing `</note>` line. -/
def goodBlock : List Line → Bool
  | [] => false
  | o :: rest => o.isNoteOpen && !o.isNoteClose && goodBody rest

/-- Number of lines in `b` carrying `<duration>n</duration>`. -/
def countDur (n : Nat) (b : List Line) : Nat := (durLines b).count n

/-- A standard note block, as produced for a score with `divisions = 2`
(eighth note = duration 1, dotted quarter = duration 3):
well-formed, at most 10 lines long (so the lookahead windows of
`_is_eighth_note_start` / `_is_dotted_quarter_start` see all of it from its
first line), exactly one duration line, duration lines free of beam/slur
markers, at most one type line, eighth type exactly for duration 1 (with a
pitch or rest marker), and dots occurring exactly in dotted quarters of
duration 3 laid out with the dot within 5 lines of the quarter type line. -/
def stdBlock (b : List Line) : Bool :=
  goodBlock b && decide (b.length ≤ 10)
    && (durLines b).length == 1
    && b.all (fun l => l.duration == none || (!l.isBeam && !l.isSlur))
    && decide ((b.filterMap (·.noteType)).length ≤ 1)
    && (hasEighthType b == (durLines b == [1]))
    && (!hasEighthType b || (b.any (·.hasPitch) || b.any (·.hasRest)))
    && (!(b.any (·.hasDot) || durLines b == [3])
        || (dqPattern 15 b && durLines b == [3]
            && b.any (·.hasPitch) && b.any (·.hasDot)))

/-- A line that the scanning loop can walk over without waking any rule:
not a note opening, no eighth type, no dot, not duration 1 or 3, and no
duration on beam/slur lines.  The tail of a standard block that matched no
lookahead has this property. -/
def inertLine (l : Line) : Bool :=
  !l.isNoteOpen && l.noteType != some .eighth && !l.hasDot
    && l.duration != some 1 && l.duration != some 3
    && (l.duration == none || (!l.isBeam && !l.isSlur))

/-! ### Elementary facts about sums and counts -/

theorem sumDur_nil : sumDur [] = 0 := rfl

theorem sumDur_cons (l : Line) (ls : List Line) :
    sumDur (l :: ls) = l.duration.getD 0 + sumDur ls := by
  cases h : l.duration <;> simp [sumDur, durLines, List.filterMap_cons, h]

theorem sumDur_append (a b : List Line) :
    sumDur (a ++ b) = sumDur a + sumDur b := by
  simp [sumDur, durLines, List.filterMap_append]

theorem countDur_append (n : Nat) (a b : List Line) :
    countDur n (a ++ b) = countDur n a + countDur n b := by
  simp [countDur, durLines, List.filterMap_append]

theorem countDur_zero_of (n : Nat) (b : List Line)
    (h : ∀ l ∈ b, l.duration ≠ some n) : countDur n b = 0 := by
  induction b with
  | nil => rfl
  | cons l rest ih =>
    have hl := h l (by simp)
    have hrest : ∀ x ∈ rest, x.duration ≠ some n := fun x hx => h x (by simp [hx])
    cases hd : l.duration with
    | none => simpa [countDur, durLines, List.filterMap_cons, hd] using ih hrest
    | some d =>
      have : d ≠ n := by intro he; exact hl (by rw [hd, he])
      simpa [countDur, durLines, List.filterMap_cons, hd, List.count_cons, this]
        using ih hrest

theorem sumDur_of_single (b : List Line) (d : Nat) (h : durLines b = [d]) :
    sumDur b = d := by
  simp [sumDur, h]

theorem countDur_of_single (b : List Line) (d : Nat) (h : durLines b = [d]) :
    countDur d b = 1 := by
  simp [countDur, h]

theorem dur_mem_of_single (b : List Line) (d : Nat) (h : durLines b = [d]) :
    ∀ l ∈ b, l.duration = none ∨ l.duration = some d := by
  intro l hl
  cases hd : l.duration with
  | none => exact Or.inl rfl
  | some x =>
    have hx : x ∈ durLines b := by
      simp only [durLines, List.mem_filterMap]
      exact ⟨l, hl, hd⟩
    rw [h] at hx
    simp only [List.mem_singleton] at hx
    exact Or.inr (congrArg some hx)

/-! ### Extraction alignment -/

theorem extractBody_cons (l : Line) (rest : List Line) :
    extractBody (l :: rest)
      = if l.isNoteClose then ([l], rest)
        else (l :: (extractBody rest).1, (extractBody rest).2) := rfl

theorem extractNoteBlock_cons (l : Line) (rest : List Line) :
    extractNoteBlock (l :: rest)
      = if l.isNoteOpen then (l :: (extractBody rest).1, (extractBody rest).2)
        else (l :: (extractNoteBlock rest).1, (extractNoteBlock rest).2) := rfl

theorem extractBody_good (body rest : List Line) (h : goodBody body = true) :
    extractBody (body ++ rest) = (body, rest) := by
  induction body with
  | nil => simp [goodBody] at h
  | cons l tl ih =>
    cases tl with
    | nil =>
      simp only [goodBody, Bool.and_eq_true, Bool.not_eq_true'] at h
      rw [List.singleton_append, extractBody_cons, if_pos h.1]
    | cons l2 tl2 =>
      simp only [goodBody, Bool.and_eq_true, Bool.not_eq_true'] at h
      obtain ⟨⟨hc, _⟩, hg⟩ := h
      rw [List.cons_append, extractBody_cons, if_neg (by simp [hc]), ih hg]

theorem extractNoteBlock_good (b rest : List Line) (hb : goodBlock b = true) :
    extractNoteBlock (b ++ rest) = (b, rest) := by
  cases b with
  | nil => simp [goodBlock] at hb
  | cons o body =>
    simp only [goodBlock, Bool.and_eq_true, Bool.not_eq_true'] at hb
    obtain ⟨⟨ho, _⟩, hg⟩ := hb
    rw [List.cons_append, extractNoteBlock_cons, if_pos ho,
      extractBody_good body rest hg]

theorem extractNoteBlock_pre (r ls : List Line)
    (hr : ∀ l ∈ r, l.isNoteOpen = false) :
    extractNoteBlock (r ++ ls)
      = (r ++ (extractNoteBlock ls).1, (extractNoteBlock ls).2) := by
  induction r with
  | nil => simp
  | cons l tl ih =>
    have hl := hr l (by simp)
    rw [List.cons_append, extractNoteBlock_cons, if_neg (by simp [hl]),
      ih (fun x hx => hr x (by simp [hx]))]
    simp

theorem extractNoteBlock_nil : extractNoteBlock [] = ([], []) := rfl

/-- Extraction at a position `r ++ b ++ rest` where `r` has no opening line
and `b` is a well-formed block captures `r ++ b` and leaves `rest`. -/
theorem extractNoteBlock_aligned (r b rest : List Line)
    (hr : ∀ l ∈ r, l.isNoteOpen = false) (hb : goodBlock b = true) :
    extractNoteBlock (r ++ (b ++ rest)) = (r ++ b, rest) := by
  rw [extractNoteBlock_pre r (b ++ rest) hr, extractNoteBlock_good b rest hb]

/-- Extraction of a final stretch without opening lines consumes everything. -/
theorem extractNoteBlock_noOpen (r : List Line)
    (hr : ∀ l ∈ r, l.isNoteOpen = false) :
    extractNoteBlock r = (r, []) := by
  have h := extractNoteBlock_pre r [] hr
  rw [List.append_nil] at h
  rw [h, extractNoteBlock_nil]
  simp

/-! ### Lookahead windows -/

theorem not_eighth_of_not_start (b rest : List Line)
    (hlen : b.length ≤ 10)
    (h : isEighthNoteStart (b ++ rest) = false) :
    ∀ l ∈ b, l.noteType ≠ some .eighth := by
  intro l hl he
  have hsub : l ∈ (b ++ rest).take 10 := by
    rw [List.take_append_eq_append_take, List.take_of_length_le hlen]
    exact List.mem_append_left _ hl
  have : isEighthNoteStart (b ++ rest) = true := by
    simp only [isEighthNoteStart, List.any_eq_true]
    exact ⟨l, hsub, by simp [he]⟩
  simp [this] at h

theorem dqPattern_mono (n : Nat) (b rest : List Line)
    (h : dqPattern n b = true) : dqPattern n (b ++ rest) = true := by
  induction n generalizing b with
  | zero => simp [dqPattern] at h
  | succ n ih =>
    cases b with
    | nil => simp [dqPattern] at h
    | cons l tl =>
      simp only [dqPattern, Bool.or_eq_true, Bool.and_eq_true] at h ⊢
      rcases h with ⟨h1, h2⟩ | h
      · left
        refine ⟨h1, ?_⟩
        simp only [List.any_eq_true] at h2 ⊢
        obtain ⟨x, hx, hxd⟩ := h2
        refine ⟨x, ?_, hxd⟩
        have h5 : (l :: (tl ++ rest)).take 5
            = (l :: tl).take 5 ++ rest.take (5 - (l :: tl).length) := by
          rw [← List.cons_append, List.take_append_eq_append_take]
        simp only [List.append_eq]
        rw [h5]
        exact List.mem_append_left _ hx
      · right
        exact ih tl h

theorem not_dq_of_not_start (b rest : List Line)
    (h : isDottedQuarterStart (b ++ rest) = false) :
    dqPattern 15 b = false := by
  by_contra hc
  simp only [Bool.not_eq_false] at hc
  have := dqPattern_mono 15 b rest hc
  simp [isDottedQuarterStart, this] at h

/-! ### Duration accounting of the three conversions -/

theorem countDur_cons (n : Nat) (l : Line) (rest : List Line) :
    countDur n (l :: rest)
      = (if l.duration = some n then 1 else 0) + countDur n rest := by
  cases hd : l.duration with
  | none => simp [countDur, durLines, List.filterMap_cons, hd]
  | some d =>
    by_cases hdn : d = n
    · subst hdn
      simp [countDur, durLines, List.filterMap_cons, hd, List.count_cons]
      omega
    · simp [countDur, durLines, List.filterMap_cons, hd, List.count_cons, hdn,
        Option.some_inj]

theorem sumDur_filterMap_cons (f : Line → Option Line) (l : Line)
    (rest : List Line) :
    sumDur (List.filterMap f (l :: rest))
      = (f l).elim 0 (fun x => x.duration.getD 0)
        + sumDur (List.filterMap f rest) := by
  cases hf : f l <;> simp [List.filterMap_cons, hf, sumDur_cons]

/-- Contribution of one line to `_convert_to_quarter_note`: a kept line keeps
its duration except that a duration of 1 becomes 2; dropped lines (beams,
slurs) carry no duration under the hypothesis. -/
theorem convQNLine_dur (l : Line)
    (h : l.duration ≠ none → (l.isBeam = false ∧ l.isSlur = false)) :
    (convQNLine l).elim 0 (fun x => x.duration.getD 0)
      = l.duration.getD 0 + (if l.duration = some 1 then 1 else 0) := by
  unfold convQNLine
  by_cases h1 : l.duration = some 1
  · simp [h1]
  · simp only [beq_iff_eq, h1, if_false]
    by_cases h2 : l.noteType = some NoteType.eighth
    · simp [h2]
    · rw [if_neg h2]
      by_cases h3 : l.isBeam = true
      · have hdur : l.duration = none := by
          by_contra hd
          exact absurd h3 (by simp [(h hd).1])
        simp [h3, hdur]
      · simp only [eq_false_of_ne_true h3, Bool.false_eq_true, if_false]
        by_cases h4 : l.isSlur = true
        · have hdur : l.duration = none := by
            by_contra hd
            exact absurd h4 (by simp [(h hd).2])
          simp [h4, hdur]
        · simp [eq_false_of_ne_true h4]

theorem convQRLine_dur (l : Line)
    (h : l.duration ≠ none → (l.isBeam = false ∧ l.isSlur = false)) :
    (convQRLine l).elim 0 (fun x => x.duration.getD 0)
      = l.duration.getD 0 + (if l.duration = some 1 then 1 else 0) := by
  unfold convQRLine
  by_cases h1 : l.duration = some 1
  · simp [h1]
  · simp only [beq_iff_eq, h1, if_false]
    by_cases h2 : l.noteType = some NoteType.eighth
    · simp [h2]
    · rw [if_neg h2]
      by_cases h3 : l.isBeam = true
      · have hdur : l.duration = none := by
          by_contra hd
          exact absurd h3 (by simp [(h hd).1])
        simp [h3, hdur]
      · simp [eq_false_of_ne_true h3]

theorem sumDur_convertToQuarterNote (b : List Line)
    (h : ∀ l ∈ b, l.duration ≠ none → (l.isBeam = false ∧ l.isSlur = false)) :
    sumDur (convertToQuarterNote b) = sumDur b + countDur 1 b := by
  induction b with
  | nil => rfl
  | cons l rest ih =>
    have ihr := ih (fun x hx => h x (by simp [hx]))
    unfold convertToQuarterNote at ihr ⊢
    rw [sumDur_filterMap_cons, convQNLine_dur l (h l (by simp)),
      sumDur_cons, countDur_cons, ihr]
    omega

theorem sumDur_convertToQuarterRest (b : List Line)
    (h : ∀ l ∈ b, l.duration ≠ none → (l.isBeam = false ∧ l.isSlur = false)) :
    sumDur (convertToQuarterRest b) = sumDur b + countDur 1 b := by
  induction b with
  | nil => rfl
  | cons l rest ih =>
    have ihr := ih (fun x hx => h x (by simp [hx]))
    unfold convertToQuarterRest at ihr ⊢
    rw [sumDur_filterMap_cons, convQRLine_dur l (h l (by simp)),
      sumDur_cons, countDur_cons, ihr]
    omega

theorem sumDur_convertToHalfNoteGo (b : List Line) (flag : Bool)
    (h : ∀ l ∈ b, l.duration ≠ none → (l.isBeam = false ∧ l.isSlur = false))
    (hdot : ∀ l ∈ b, l.hasDot = true → l.duration = none ∨ l.duration = some 3) :
    sumDur (convertToHalfNoteGo flag b) = sumDur b + countDur 3 b := by
  induction b generalizing flag with
  | nil => rfl
  | cons l rest ih =>
    have ihr : ∀ fl, sumDur (convertToHalfNoteGo fl rest)
        = sumDur rest + countDur 3 rest :=
      fun fl => ih fl (fun x hx => h x (by simp [hx]))
        (fun x hx => hdot x (by simp [hx]))
    rw [sumDur_cons, countDur_cons]
    unfold convertToHalfNoteGo
    by_cases h1 : l.duration = some 3
    · simp only [h1, beq_self_eq_true, if_true]
      rw [sumDur_cons, ihr]
      simp only [h1, Option.getD_some, if_pos rfl]
      omega
    · have h1b : (l.duration == some 3) = false := by simp [h1]
      rw [h1b]
      simp only [Bool.false_eq_true, if_false, h1]
      by_cases h2 : (l.noteType == some NoteType.quarter && flag) = true
      · rw [if_pos h2, sumDur_cons, ihr]
        simp only [h1, if_false]
        omega
      · rw [if_neg h2]
        by_cases h3 : l.hasDot = true
        · have hdur : l.duration = none := by
            rcases hdot l (by simp) h3 with hn | hs
            · exact hn
            · exact absurd hs h1
          rw [if_pos h3, ihr]
          simp only [hdur, Option.getD_none, h1, if_false]
          omega
        · rw [if_neg h3]
          by_cases h4 : l.isBeam = true
          · have hdur : l.duration = none := by
              by_contra hd
              exact absurd h4 (by simp [(h l (by simp) hd).1])
            rw [if_pos h4, ihr]
            simp only [hdur, Option.getD_none, h1, if_false]
            omega
          · rw [if_neg h4]
            by_cases h5 : l.isSlur = true
            · have hdur : l.duration = none := by
                by_contra hd
                exact absurd h5 (by simp [(h l (by simp) hd).2])
              rw [if_pos h5, ihr]
              simp only [hdur, Option.getD_none, h1, if_false]
              omega
            · rw [if_neg h5, sumDur_cons, ihr]
              omega

theorem sumDur_convertToHalfNote (b : List Line)
    (h : ∀ l ∈ b, l.duration ≠ none → (l.isBeam = false ∧ l.isSlur = false))
    (hdot : ∀ l ∈ b, l.hasDot = true → l.duration = none ∨ l.duration = some 3) :
    sumDur (convertToHalfNote b) = sumDur b + countDur 3 b :=
  sumDur_convertToHalfNoteGo b false h hdot

/-! ### Preservation of "beam lines carry no duration" -/

/-- The per-line property that a beam line carries no duration; beams are the
only lines `_remove_beams` deletes at the end of the pass. -/
def beamNoDur (l : Line) : Prop := l.isBeam = true → l.duration = none

theorem convQNLine_beamOK (l l' : Line) (h : beamNoDur l)
    (hl : convQNLine l = some l') : beamNoDur l' := by
  unfold convQNLine at hl
  intro hb
  by_cases h1 : (l.duration == some 1) = true
  · rw [if_pos h1] at hl
    have h1d : l.duration = some 1 := by simpa using h1
    cases hl
    exact absurd (h (by simpa using hb)) (by simp [h1d])
  · rw [if_neg h1] at hl
    by_cases h2 : (l.noteType == some NoteType.eighth) = true
    · rw [if_pos h2] at hl
      cases hl
      exact h (by simpa using hb)
    · rw [if_neg h2] at hl
      by_cases h3 : l.isBeam = true
      · simp [h3] at hl
      · rw [if_neg h3] at hl
        by_cases h4 : l.isSlur = true
        · simp [h4] at hl
        · rw [if_neg h4] at hl
          cases hl
          exact h hb

theorem convQRLine_beamOK (l l' : Line) (h : beamNoDur l)
    (hl : convQRLine l = some l') : beamNoDur l' := by
  unfold convQRLine at hl
  intro hb
  by_cases h1 : (l.duration == some 1) = true
  · rw [if_pos h1] at hl
    have h1d : l.duration = some 1 := by simpa using h1
    cases hl
    exact absurd (h (by simpa using hb)) (by simp [h1d])
  · rw [if_neg h1] at hl
    by_cases h2 : (l.noteType == some NoteType.eighth) = true
    · rw [if_pos h2] at hl
      cases hl
      exact h (by simpa using hb)
    · rw [if_neg h2] at hl
      by_cases h3 : l.isBeam = true
      · simp [h3] at hl
      · rw [if_neg h3] at hl
        cases hl
        exact h hb

theorem beamOK_convertToQuarterNote (b : List Line)
    (h : ∀ l ∈ b, beamNoDur l) :
    ∀ l ∈ convertToQuarterNote b, beamNoDur l := by
  intro l' hl'
  simp only [convertToQuarterNote, List.mem_filterMap] at hl'
  obtain ⟨l, hl, hf⟩ := hl'
  exact convQNLine_beamOK l l' (h l hl) hf

theorem beamOK_convertToQuarterRest (b : List Line)
    (h : ∀ l ∈ b, beamNoDur l) :
    ∀ l ∈ convertToQuarterRest b, beamNoDur l := by
  intro l' hl'
  simp only [convertToQuarterRest, List.mem_filterMap] at hl'
  obtain ⟨l, hl, hf⟩ := hl'
  exact convQRLine_beamOK l l' (h l hl) hf

theorem beamOK_convertToHalfNoteGo (b : List Line) (flag : Bool)
    (h : ∀ l ∈ b, beamNoDur l) :
    ∀ l ∈ convertToHalfNoteGo flag b, beamNoDur l := by
  induction b generalizing flag with
  | nil => simp [convertToHalfNoteGo]
  | cons l rest ih =>
    have hrest : ∀ fl, ∀ x ∈ convertToHalfNoteGo fl rest, beamNoDur x :=
      fun fl => ih fl (fun x hx => h x (by simp [hx]))
    have hl := h l (by simp)
    intro l' hl'
    unfold convertToHalfNoteGo at hl'
    by_cases h1 : (l.duration == some 3) = true
    · rw [if_pos h1] at hl'
      rcases List.mem_cons.mp hl' with he | hm
      · subst he
        intro hb
        have h1d : l.duration = some 3 := by simpa using h1
        exact absurd (hl (by simpa using hb)) (by simp [h1d])
      · exact hrest true l' hm
    · rw [if_neg h1] at hl'
      by_cases h2 : (l.noteType == some NoteType.quarter && flag) = true
      · rw [if_pos h2] at hl'
        rcases List.mem_cons.mp hl' with he | hm
        · subst he
          intro hb
          exact hl (by simpa using hb)
        · exact hrest flag l' hm
      · rw [if_neg h2] at hl'
        by_cases h3 : l.hasDot = true
        · rw [if_pos h3] at hl'
          exact hrest flag l' hl'
        · rw [if_neg h3] at hl'
          by_cases h4 : l.isBeam = true
          · rw [if_pos h4] at hl'
            exact hrest flag l' hl'
          · rw [if_neg h4] at hl'
            by_cases h5 : l.isSlur = true
            · rw [if_pos h5] at hl'
              exact hrest flag l' hl'
            · rw [if_neg h5] at hl'
              rcases List.mem_cons.mp hl' with he | hm
              · subst he; exact hl
              · exact hrest flag l' hm

theorem beamOK_convertToHalfNote (b : List Line)
    (h : ∀ l ∈ b, beamNoDur l) :
    ∀ l ∈ convertToHalfNote b, beamNoDur l :=
  beamOK_convertToHalfNoteGo b false h

theorem sumDur_removeBeams (ls : List Line) (h : ∀ l ∈ ls, beamNoDur l) :
    sumDur (removeBeams ls) = sumDur ls := by
  induction ls with
  | nil => rfl
  | cons l rest ih =>
    have ihr := ih (fun x hx => h x (by simp [hx]))
    unfold removeBeams at ihr ⊢
    by_cases hb : l.isBeam = true
    · have hd : l.duration = none := h l (by simp) hb
      rw [List.filter_cons_of_neg (by simp [hb]), ihr, sumDur_cons, hd]
      simp
    · rw [List.filter_cons_of_pos (by simp [hb]), sumDur_cons, sumDur_cons, ihr]

/-! ### Projections of a standard block -/

theorem stdBlock_parts (b : List Line) (h : stdBlock b = true) :
    goodBlock b = true ∧ b.length ≤ 10 ∧ (durLines b).length = 1
      ∧ (∀ l ∈ b, l.duration ≠ none → (l.isBeam = false ∧ l.isSlur = false))
      ∧ (hasEighthType b = (durLines b == [1]))
      ∧ (hasEighthType b = true → (b.any (·.hasPitch) = true ∨ b.any (·.hasRest) = true))
      ∧ ((b.any (·.hasDot) = true ∨ durLines b = [3]) →
          (dqPattern 15 b = true ∧ durLines b = [3]
            ∧ b.any (·.hasPitch) = true ∧ b.any (·.hasDot) = true)) := by
  simp only [stdBlock, Bool.and_eq_true, decide_eq_true_eq, beq_iff_eq,
    Bool.or_eq_true, Bool.not_eq_true', List.all_eq_true] at h
  obtain ⟨⟨⟨⟨⟨⟨⟨hgood, hlen⟩, hone⟩, hbs⟩, _htype⟩, hee⟩, hepr⟩, hdq⟩ := h
  refine ⟨hgood, hlen, hone, ?_, hee, ?_, ?_⟩
  · intro l hl hd
    rcases hbs l hl with h1 | h2
    · exact absurd (by simpa using h1) hd
    · simpa [Bool.and_eq_true, Bool.not_eq_true'] using h2
  · intro he
    rcases hepr with h1 | h2
    · rw [he] at h1
      cases h1
    · exact h2
  · intro hcase
    rcases hdq with h1 | h2
    · exfalso
      rcases hcase with hc | hc
      · rw [hc] at h1
        simp at h1
      · have hbeq : (durLines b == [3]) = true := by simp [hc]
        rw [hbeq] at h1
        simp at h1
    · exact ⟨h2.1.1.1, h2.1.1.2, h2.1.2, h2.2⟩

/-! ### Quiet blocks and inert tails -/

theorem inertLine_parts (l : Line) (h : inertLine l = true) :
    l.isNoteOpen = false ∧ l.noteType ≠ some .eighth ∧ l.hasDot = false
      ∧ l.duration ≠ some 1 ∧ l.duration ≠ some 3
      ∧ (l.duration ≠ none → (l.isBeam = false ∧ l.isSlur = false)) := by
  simp only [inertLine, Bool.and_eq_true, Bool.not_eq_true', bne_iff_ne,
    ne_eq, Bool.or_eq_true, beq_iff_eq] at h
  obtain ⟨⟨⟨⟨⟨ho, ht⟩, hd⟩, h1⟩, h3⟩, hbs⟩ := h
  refine ⟨ho, ht, hd, h1, h3, ?_⟩
  intro hd2
  rcases hbs with hn | hb
  · exact absurd hn hd2
  · simpa [Bool.and_eq_true, Bool.not_eq_true'] using hb

theorem goodBody_not_open (body : List Line) (h : goodBody body = true) :
    ∀ l ∈ body, l.isNoteOpen = false := by
  induction body with
  | nil => simp
  | cons l tl ih =>
    cases tl with
    | nil =>
      simp only [goodBody, Bool.and_eq_true, Bool.not_eq_true'] at h
      intro x hx
      rcases List.mem_singleton.mp hx with rfl
      exact h.2
    | cons l2 tl2 =>
      simp only [goodBody, Bool.and_eq_true, Bool.not_eq_true'] at h
      obtain ⟨⟨_, ho⟩, hg⟩ := h
      intro x hx
      rcases List.mem_cons.mp hx with rfl | hx2
      · exact ho
      · exact ih hg x hx2

theorem goodBlock_tail_not_open (b : List Line) (h : goodBlock b = true) :
    ∀ l ∈ b.tail, l.isNoteOpen = false := by
  cases b with
  | nil => simp [goodBlock] at h
  | cons o body =>
    simp only [goodBlock, Bool.and_eq_true, Bool.not_eq_true'] at h
    exact goodBody_not_open body h.2

theorem any_eighth_false (r : List Line)
    (h : ∀ l ∈ r, l.noteType ≠ some NoteType.eighth) :
    (r.any (fun l => l.noteType == some .eighth)) = false := by
  by_contra hc
  simp only [Bool.not_eq_false, List.any_eq_true] at hc
  obtain ⟨x, hx, hxe⟩ := hc
  exact h x hx (by simpa using hxe)

theorem any_dot_false (r : List Line) (h : ∀ l ∈ r, l.hasDot = false) :
    (r.any (·.hasDot)) = false := by
  by_contra hc
  simp only [Bool.not_eq_false, List.any_eq_true] at hc
  obtain ⟨x, hx, hxe⟩ := hc
  exact absurd hxe (by simp [h x hx])

theorem durLines_single_of_len (b : List Line)
    (h : (durLines b).length = 1) : ∃ d, durLines b = [d] := by
  rcases List.length_eq_one.mp h with ⟨d, hd⟩
  exact ⟨d, hd⟩

theorem mem_durLines (b : List Line) (l : Line) (x : Nat)
    (hl : l ∈ b) (hx : l.duration = some x) : x ∈ durLines b := by
  simp only [durLines, List.mem_filterMap]
  exact ⟨l, hl, hx⟩

/-- A standard block that woke neither lookahead has no eighth type line, no
dot, and durations other than 1 and 3. -/
theorem quiet_block (b rest : List Line) (hstd : stdBlock b = true)
    (hdq : isDottedQuarterStart (b ++ rest) = false)
    (hei : isEighthNoteStart (b ++ rest) = false) :
    ∀ l ∈ b, l.noteType ≠ some NoteType.eighth ∧ l.hasDot = false
      ∧ l.duration ≠ some 1 ∧ l.duration ≠ some 3 := by
  obtain ⟨hgood, hlen, hone, hbs, hee, hepr, hdot3⟩ := stdBlock_parts b hstd
  have hne : ∀ l ∈ b, l.noteType ≠ some NoteType.eighth :=
    not_eighth_of_not_start b rest hlen hei
  have hnE : hasEighthType b = false := any_eighth_false b hne
  have hnodq : dqPattern 15 b = false := not_dq_of_not_start b rest hdq
  intro l hl
  refine ⟨hne l hl, ?_, ?_, ?_⟩
  · by_contra hc
    simp only [Bool.not_eq_false] at hc
    have : (b.any (·.hasDot)) = true := by
      simp only [List.any_eq_true]
      exact ⟨l, hl, hc⟩
    have := (hdot3 (Or.inl this)).1
    simp [this] at hnodq
  · intro hd
    have h1 : (1 : Nat) ∈ durLines b := mem_durLines b l 1 hl hd
    obtain ⟨d, hds⟩ := durLines_single_of_len b hone
    rw [hds] at h1
    rcases List.mem_singleton.mp h1 with rfl
    rw [hds] at hee
    simp [hnE] at hee
  · intro hd
    have h3 : (3 : Nat) ∈ durLines b := mem_durLines b l 3 hl hd
    obtain ⟨d, hds⟩ := durLines_single_of_len b hone
    rw [hds] at h3
    rcases List.mem_singleton.mp h3 with rfl
    have := (hdot3 (Or.inr hds)).1
    simp [this] at hnodq

/-- Tail of a quiet standard block is inert. -/
theorem inert_tail_of_quiet (b rest : List Line) (hstd : stdBlock b = true)
    (hdq : isDottedQuarterStart (b ++ rest) = false)
    (hei : isEighthNoteStart (b ++ rest) = false) :
    ∀ l ∈ b.tail, inertLine l = true := by
  obtain ⟨hgood, _, _, hbs, _, _, _⟩ := stdBlock_parts b hstd
  intro l hl
  have hlb : l ∈ b := List.mem_of_mem_tail hl
  obtain ⟨hne, hnd, h1, h3⟩ := quiet_block b rest hstd hdq hei l hlb
  have ho := goodBlock_tail_not_open b hgood l hl
  simp only [inertLine, Bool.and_eq_true, Bool.not_eq_true', bne_iff_ne,
    ne_eq, Bool.or_eq_true, beq_iff_eq]
  refine ⟨⟨⟨⟨⟨ho, hne⟩, hnd⟩, h1⟩, h3⟩, ?_⟩
  by_cases hd : l.duration = none
  · exact Or.inl hd
  · have := hbs l hlb hd
    exact Or.inr (by simp [this.1, this.2])

/-! ### Duration accounting of the three merges -/

theorem mergeSum_quarter (r b1 b2 : List Line)
    (hr : ∀ l ∈ r, inertLine l = true)
    (h1 : stdBlock b1 = true) (h2 : stdBlock b2 = true)
    (hA : isEighthNoteBlock (r ++ b1) = true)
    (hB : isEighthNoteBlock b2 = true ∨ isEighthRestBlock b2 = true) :
    sumDur (convertToQuarterNote (r ++ b1)) = sumDur r + sumDur b1 + sumDur b2 := by
  obtain ⟨_, _, hone1, hbs1, hee1, _, _⟩ := stdBlock_parts b1 h1
  obtain ⟨_, _, _, _, hee2, _, _⟩ := stdBlock_parts b2 h2
  have hrP : ∀ l ∈ r ++ b1, l.duration ≠ none → (l.isBeam = false ∧ l.isSlur = false) := by
    intro l hl hd
    rcases List.mem_append.mp hl with hl | hl
    · exact (inertLine_parts l (hr l hl)).2.2.2.2.2 hd
    · exact hbs1 l hl hd
  have hrne : ∀ l ∈ r, l.noteType ≠ some NoteType.eighth :=
    fun l hl => (inertLine_parts l (hr l hl)).2.1
  -- the eighth type line of `r ++ b1` lies in `b1`
  have hEb1 : hasEighthType b1 = true := by
    have := hA
    simp only [isEighthNoteBlock, Bool.and_eq_true, List.any_append,
      Bool.or_eq_true] at this
    rcases this.1 with hc | hc
    · rw [any_eighth_false r hrne] at hc
      cases hc
    · exact hc
  have hd1 : durLines b1 = [1] := by
    rw [hEb1] at hee1
    simpa using hee1.symm
  have hEb2 : hasEighthType b2 = true := by
    rcases hB with hb | hb
    · simp only [isEighthNoteBlock, Bool.and_eq_true] at hb
      exact hb.1
    · simp only [isEighthRestBlock, Bool.and_eq_true] at hb
      exact hb.1
  have hd2 : durLines b2 = [1] := by
    rw [hEb2] at hee2
    simpa using hee2.symm
  have hc1 : countDur 1 r = 0 :=
    countDur_zero_of 1 r (fun l hl => (inertLine_parts l (hr l hl)).2.2.2.1)
  rw [sumDur_convertToQuarterNote (r ++ b1) hrP, sumDur_append,
    countDur_append, hc1, countDur_of_single b1 1 hd1,
    sumDur_of_single b2 1 hd2]

theorem mergeSum_rest (r b1 b2 : List Line)
    (hr : ∀ l ∈ r, inertLine l = true)
    (h1 : stdBlock b1 = true) (h2 : stdBlock b2 = true)
    (hA : isEighthRestBlock (r ++ b1) = true)
    (hB : isEighthNoteBlock b2 = true) :
    sumDur (convertToQuarterRest (r ++ b1)) = sumDur r + sumDur b1 + sumDur b2 := by
  obtain ⟨_, _, hone1, hbs1, hee1, _, _⟩ := stdBlock_parts b1 h1
  obtain ⟨_, _, _, _, hee2, _, _⟩ := stdBlock_parts b2 h2
  have hrP : ∀ l ∈ r ++ b1, l.duration ≠ none → (l.isBeam = false ∧ l.isSlur = false) := by
    intro l hl hd
    rcases List.mem_append.mp hl with hl | hl
    · exact (inertLine_parts l (hr l hl)).2.2.2.2.2 hd
    · exact hbs1 l hl hd
  have hrne : ∀ l ∈ r, l.noteType ≠ some NoteType.eighth :=
    fun l hl => (inertLine_parts l (hr l hl)).2.1
  have hEb1 : hasEighthType b1 = true := by
    have := hA
    simp only [isEighthRestBlock, Bool.and_eq_true, List.any_append,
      Bool.or_eq_true] at this
    rcases this.1 with hc | hc
    · rw [any_eighth_false r hrne] at hc
      cases hc
    · exact hc
  have hd1 : durLines b1 = [1] := by
    rw [hEb1] at hee1
    simpa using hee1.symm
  have hEb2 : hasEighthType b2 = true := by
    have hb := hB
    simp only [isEighthNoteBlock, Bool.and_eq_true] at hb
    exact hb.1
  have hd2 : durLines b2 = [1] := by
    rw [hEb2] at hee2
    simpa using hee2.symm
  have hc1 : countDur 1 r = 0 :=
    countDur_zero_of 1 r (fun l hl => (inertLine_parts l (hr l hl)).2.2.2.1)
  rw [sumDur_convertToQuarterRest (r ++ b1) hrP, sumDur_append,
    countDur_append, hc1, countDur_of_single b1 1 hd1,
    sumDur_of_single b2 1 hd2]

theorem mergeSum_half (r b1 b2 : List Line)
    (hr : ∀ l ∈ r, inertLine l = true)
    (h1 : stdBlock b1 = true) (h2 : stdBlock b2 = true)
    (hA : isDottedQuarterBlock (r ++ b1) = true)
    (hB : isEighthNoteBlock b2 = true) :
    sumDur (convertToHalfNote (r ++ b1)) = sumDur r + sumDur b1 + sumDur b2 := by
  obtain ⟨_, _, hone1, hbs1, _, _, hdot1⟩ := stdBlock_parts b1 h1
  obtain ⟨_, _, _, _, hee2, _, _⟩ := stdBlock_parts b2 h2
  have hrP : ∀ l ∈ r ++ b1, l.duration ≠ none → (l.isBeam = false ∧ l.isSlur = false) := by
    intro l hl hd
    rcases List.mem_append.mp hl with hl | hl
    · exact (inertLine_parts l (hr l hl)).2.2.2.2.2 hd
    · exact hbs1 l hl hd
  have hrdot : ∀ l ∈ r, l.hasDot = false :=
    fun l hl => (inertLine_parts l (hr l hl)).2.2.1
  -- the dot of `r ++ b1` lies in `b1`, so `b1` is a duration-3 dotted quarter
  have hDb1 : (b1.any (·.hasDot)) = true := by
    have := hA
    simp only [isDottedQuarterBlock, Bool.and_eq_true, List.any_append,
      Bool.or_eq_true] at this
    rcases this.1.2 with hc | hc
    · rw [any_dot_false r hrdot] at hc
      cases hc
    · exact hc
  have hd31 : durLines b1 = [3] := (hdot1 (Or.inl hDb1)).2.1
  have hdotP : ∀ l ∈ r ++ b1, l.hasDot = true → l.duration = none ∨ l.duration = some 3 := by
    intro l hl hd
    rcases List.mem_append.mp hl with hl | hl
    · exact absurd hd (by simp [hrdot l hl])
    · exact dur_mem_of_single b1 3 hd31 l hl
  have hEb2 : hasEighthType b2 = true := by
    have hb := hB
    simp only [isEighthNoteBlock, Bool.and_eq_true] at hb
    exact hb.1
  have hd2 : durLines b2 = [1] := by
    rw [hEb2] at hee2
    simpa using hee2.symm
  have hc3 : countDur 3 r = 0 :=
    countDur_zero_of 3 r (fun l hl => (inertLine_parts l (hr l hl)).2.2.2.2.1)
  rw [sumDur_convertToHalfNote (r ++ b1) hrP hdotP, sumDur_append,
    countDur_append, hc3, countDur_of_single b1 3 hd31,
    sumDur_of_single b2 1 hd2]

/-! ### Branch equations of the scanning loop -/

theorem downbeatLoop_nil (m e : Nat) : downbeatLoop m e [] = ((m, e), []) := by
  rw [downbeatLoop]

theorem downbeatLoop_dq_end (m e : Nat) (l : Line) (rest : List Line)
    (hdq : isDottedQuarterStart (l :: rest) = true)
    (h1 : (extractNoteBlock (l :: rest)).2 = []) :
    downbeatLoop m e (l :: rest)
      = ((if l.isMeasureStart then m + 1 else m, e),
          (extractNoteBlock (l :: rest)).1) := by
  rw [downbeatLoop]
  simp [hdq, h1]

theorem downbeatLoop_dq_merge (m e : Nat) (l : Line) (rest : List Line)
    (hdq : isDottedQuarterStart (l :: rest) = true)
    (h1 : (extractNoteBlock (l :: rest)).2 ≠ [])
    (hm : isDottedQuarterBlock (extractNoteBlock (l :: rest)).1 = true)
    (hm2 : isEighthNoteBlock (extractNoteBlock (extractNoteBlock (l :: rest)).2).1 = true) :
    downbeatLoop m e (l :: rest)
      = ((downbeatLoop (if l.isMeasureStart then m + 1 else m) (e + 2)
            (extractNoteBlock (extractNoteBlock (l :: rest)).2).2).1,
         convertToHalfNote (extractNoteBlock (l :: rest)).1
           ++ (downbeatLoop (if l.isMeasureStart then m + 1 else m) (e + 2)
            (extractNoteBlock (extractNoteBlock (l :: rest)).2).2).2) := by
  rw [downbeatLoop]
  simp [hdq, h1, hm, hm2]

theorem downbeatLoop_dq_pass (m e : Nat) (l : Line) (rest : List Line)
    (hdq : isDottedQuarterStart (l :: rest) = true)
    (h1 : (extractNoteBlock (l :: rest)).2 ≠ [])
    (hm : (isDottedQuarterBlock (extractNoteBlock (l :: rest)).1
        && isEighthNoteBlock (extractNoteBlock (extractNoteBlock (l :: rest)).2).1) = false) :
    downbeatLoop m e (l :: rest)
      = ((downbeatLoop (if l.isMeasureStart then m + 1 else m) e
            (extractNoteBlock (l :: rest)).2).1,
         (extractNoteBlock (l :: rest)).1
           ++ (downbeatLoop (if l.isMeasureStart then m + 1 else m) e
            (extractNoteBlock (l :: rest)).2).2) := by
  rw [downbeatLoop]
  simp only [hdq, if_true, dif_neg h1]
  rw [if_neg (by simp [hm])]

theorem downbeatLoop_ei_end (m e : Nat) (l : Line) (rest : List Line)
    (hdq : isDottedQuarterStart (l :: rest) = false)
    (hei : isEighthNoteStart (l :: rest) = true)
    (h1 : (extractNoteBlock (l :: rest)).2 = []) :
    downbeatLoop m e (l :: rest)
      = ((if l.isMeasureStart then m + 1 else m, e),
          (extractNoteBlock (l :: rest)).1) := by
  rw [downbeatLoop]
  simp [hdq, hei, h1]

theorem downbeatLoop_ei_mergeN (m e : Nat) (l : Line) (rest : List Line)
    (hdq : isDottedQuarterStart (l :: rest) = false)
    (hei : isEighthNoteStart (l :: rest) = true)
    (h1 : (extractNoteBlock (l :: rest)).2 ≠ [])
    (hm : isEighthNoteBlock (extractNoteBlock (l :: rest)).1 = true)
    (hm2 : (isEighthNoteBlock (extractNoteBlock (extractNoteBlock (l :: rest)).2).1
        || isEighthRestBlock (extractNoteBlock (extractNoteBlock (l :: rest)).2).1) = true) :
    downbeatLoop m e (l :: rest)
      = ((downbeatLoop (if l.isMeasureStart then m + 1 else m) (e + 2)
            (extractNoteBlock (extractNoteBlock (l :: rest)).2).2).1,
         convertToQuarterNote (extractNoteBlock (l :: rest)).1
           ++ (downbeatLoop (if l.isMeasureStart then m + 1 else m) (e + 2)
            (extractNoteBlock (extractNoteBlock (l :: rest)).2).2).2) := by
  rw [downbeatLoop]
  simp [hdq, hei, h1, hm, hm2]

theorem downbeatLoop_ei_mergeR (m e : Nat) (l : Line) (rest : List Line)
    (hdq : isDottedQuarterStart (l :: rest) = false)
    (hei : isEighthNoteStart (l :: rest) = true)
    (h1 : (extractNoteBlock (l :: rest)).2 ≠ [])
    (hm : (isEighthNoteBlock (extractNoteBlock (l :: rest)).1
        && (isEighthNoteBlock (extractNoteBlock (extractNoteBlock (l :: rest)).2).1
          || isEighthRestBlock (extractNoteBlock (extractNoteBlock (l :: rest)).2).1)) = false)
    (hr : isEighthRestBlock (extractNoteBlock (l :: rest)).1 = true)
    (hr2 : isEighthNoteBlock (extractNoteBlock (extractNoteBlock (l :: rest)).2).1 = true) :
    downbeatLoop m e (l :: rest)
      = ((downbeatLoop (if l.isMeasureStart then m + 1 else m) (e + 2)
            (extractNoteBlock (extractNoteBlock (l :: rest)).2).2).1,
         convertToQuarterRest (extractNoteBlock (l :: rest)).1
           ++ (downbeatLoop (if l.isMeasureStart then m + 1 else m) (e + 2)
            (extractNoteBlock (extractNoteBlock (l :: rest)).2).2).2) := by
  rw [downbeatLoop]
  simp only [hdq, Bool.false_eq_true, if_false, hei, if_true, dif_neg h1]
  rw [if_neg (by simp [hm]), if_pos (by simp [hr, hr2])]

theorem downbeatLoop_ei_pass (m e : Nat) (l : Line) (rest : List Line)
    (hdq : isDottedQuarterStart (l :: rest) = false)
    (hei : isEighthNoteStart (l :: rest) = true)
    (h1 : (extractNoteBlock (l :: rest)).2 ≠ [])
    (hm : (isEighthNoteBlock (extractNoteBlock (l :: rest)).1
        && (isEighthNoteBlock (extractNoteBlock (extractNoteBlock (l :: rest)).2).1
          || isEighthRestBlock (extractNoteBlock (extractNoteBlock (l :: rest)).2).1)) = false)
    (hr : (isEighthRestBlock (extractNoteBlock (l :: rest)).1
        && isEighthNoteBlock (extractNoteBlock (extractNoteBlock (l :: rest)).2).1) = false) :
    downbeatLoop m e (l :: rest)
      = ((downbeatLoop (if l.isMeasureStart then m + 1 else m) e
            (extractNoteBlock (l :: rest)).2).1,
         (extractNoteBlock (l :: rest)).1
           ++ (downbeatLoop (if l.isMeasureStart then m + 1 else m) e
            (extractNoteBlock (l :: rest)).2).2) := by
  rw [downbeatLoop]
  simp only [hdq, Bool.false_eq_true, if_false, hei, if_true, dif_neg h1]
  rw [if_neg (by simp [hm]), if_neg (by simp [hr])]

theorem downbeatLoop_step (m e : Nat) (l : Line) (rest : List Line)
    (hdq : isDottedQuarterStart (l :: rest) = false)
    (hei : isEighthNoteStart (l :: rest) = false) :
    downbeatLoop m e (l :: rest)
      = ((downbeatLoop (if l.isMeasureStart then m + 1 else m) e rest).1,
         l :: (downbeatLoop (if l.isMeasureStart then m + 1 else m) e rest).2) := by
  rw [downbeatLoop]
  simp [hdq, hei]

/-! ### Master conservation lemma -/

theorem beamNoDur_of_durProp (l : Line)
    (h : l.duration ≠ none → (l.isBeam = false ∧ l.isSlur = false)) :
    beamNoDur l := by
  intro hb
  by_contra hd
  exact absurd (h hd).1 (by simp [hb])

theorem goodBlock_ne_nil (b : List Line) (h : goodBlock b = true) : b ≠ [] := by
  cases b <;> simp_all [goodBlock]

theorem beamNoDur_mem (r : List Line) (bs : List (List Line))
    (hr : ∀ l ∈ r, inertLine l = true)
    (hbs : ∀ b ∈ bs, stdBlock b = true) :
    ∀ l ∈ r ++ bs.join, beamNoDur l := by
  intro l hl
  rcases List.mem_append.mp hl with hl | hl
  · exact beamNoDur_of_durProp l (inertLine_parts l (hr l hl)).2.2.2.2.2
  · rcases List.mem_join.mp hl with ⟨b, hb, hlb⟩
    exact beamNoDur_of_durProp l
      ((stdBlock_parts b (hbs b hb)).2.2.2.1 l hlb)

/-- The scanning loop conserves total duration and keeps beam lines
duration-free, on any content that is an inert stretch followed by standard
note blocks. -/
theorem loopMaster (n : Nat) : ∀ (r : List Line) (bs : List (List Line)) (m e : Nat),
    (r ++ bs.join).length ≤ n →
    (∀ l ∈ r, inertLine l = true) →
    (∀ b ∈ bs, stdBlock b = true) →
    sumDur (downbeatLoop m e (r ++ bs.join)).2 = sumDur (r ++ bs.join)
      ∧ ∀ l ∈ (downbeatLoop m e (r ++ bs.join)).2, beamNoDur l := by
  induction n with
  | zero =>
    intro r bs m e hlen hr hbs
    have hnil : r ++ bs.join = [] := List.length_eq_zero.mp (Nat.le_zero.mp hlen)
    rw [hnil, downbeatLoop_nil]
    simp [sumDur_nil]
  | succ n IH =>
    intro r bs m e hlen hr hbs
    cases hL : r ++ bs.join with
    | nil =>
      rw [downbeatLoop_nil]
      simp [sumDur_nil]
    | cons x xs =>
    have hBmem : ∀ l ∈ (x :: xs), beamNoDur l := by
      rw [← hL]; exact beamNoDur_mem r bs hr hbs
    have hrno : ∀ l ∈ r, l.isNoteOpen = false :=
      fun l hl => (inertLine_parts l (hr l hl)).1
    cases bs with
    | nil =>
      -- only the inert stretch remains: no rule can produce a merge
      have hex : extractNoteBlock (x :: xs) = (x :: xs, []) := by
        rw [← hL]
        simp only [List.join_nil, List.append_nil]
        exact extractNoteBlock_noOpen r hrno
      by_cases hdq : isDottedQuarterStart (x :: xs) = true
      · rw [downbeatLoop_dq_end m e x xs hdq (by rw [hex])]
        rw [hex]
        exact ⟨rfl, hBmem⟩
      · by_cases hei : isEighthNoteStart (x :: xs) = true
        · rw [downbeatLoop_ei_end m e x xs (by simpa using hdq) hei (by rw [hex])]
          rw [hex]
          exact ⟨rfl, hBmem⟩
        · rw [downbeatLoop_step m e x xs (by simpa using hdq) (by simpa using hei)]
          -- x is the head of r, the tail of r is inert
          cases r with
          | nil => simp [List.join_nil] at hL
          | cons rl r2 =>
            simp only [List.join_nil, List.append_nil, List.cons.injEq] at hL
            obtain ⟨rfl, hxs⟩ := hL
            have hr2 : ∀ l ∈ r2, inertLine l = true :=
              fun l hl => hr l (by simp [hl])
            have hlen2 : (r2 ++ ([] : List (List Line)).join).length ≤ n := by
              simp only [List.join_nil, List.append_nil]
              have h2 : (rl :: r2).length ≤ n + 1 := by simpa using hlen
              simp only [List.length_cons] at h2
              omega
            obtain ⟨ihs, ihb⟩ := IH r2 [] (if rl.isMeasureStart then m + 1 else m) e
              hlen2 hr2 (by simp)
            simp only [List.join_nil, List.append_nil] at ihs ihb
            rw [← hxs]
            constructor
            · rw [sumDur_cons, sumDur_cons, ihs]
            · intro l hl
              rcases List.mem_cons.mp hl with rfl | hl2
              · exact hBmem l (by simp)
              · exact ihb l hl2
    | cons b1 bs2 =>
      have hstd1 : stdBlock b1 = true := hbs b1 (by simp)
      obtain ⟨hgood1, hlen1, hone1, hbs1, hee1, hepr1, hdot1⟩ := stdBlock_parts b1 hstd1
      have hLrw : r ++ (b1 ++ bs2.join) = x :: xs := by
        simpa [List.join_cons] using hL
      have hex : extractNoteBlock (x :: xs) = (r ++ b1, bs2.join) := by
        rw [← hLrw]
        exact extractNoteBlock_aligned r b1 bs2.join hrno hgood1
      have hb1ne : b1 ≠ [] := goodBlock_ne_nil b1 hgood1
      have hlenL : (x :: xs).length ≤ n + 1 := by rw [← hL]; exact hlen
      have hsumL : sumDur (x :: xs) = sumDur r + sumDur b1 + sumDur bs2.join := by
        rw [← hLrw, sumDur_append, sumDur_append]
        omega
      -- helper for the pass cases: emit `r ++ b1` and recurse on `bs2`
      have passCase : ∀ (m2 e2 : Nat),
          sumDur ((r ++ b1) ++ (downbeatLoop m2 e2 bs2.join).2) = sumDur (x :: xs)
            ∧ ∀ l ∈ (r ++ b1) ++ (downbeatLoop m2 e2 bs2.join).2, beamNoDur l := by
        intro m2 e2
        have hlen2 : (([] : List Line) ++ bs2.join).length ≤ n := by
          have h1 : (r ++ (b1 ++ bs2.join)).length ≤ n + 1 := by
            rw [hLrw]; exact hlenL
          simp only [List.length_append] at h1
          have : 1 ≤ b1.length := by
            cases b1 with
            | nil => exact absurd rfl hb1ne
            | cons a b => simp
          simp only [List.nil_append]
          omega
        obtain ⟨ihs, ihb⟩ := IH [] bs2 m2 e2 hlen2 (by simp)
          (fun b hb => hbs b (by simp [hb]))
        simp only [List.nil_append] at ihs ihb
        constructor
        · rw [sumDur_append, ihs, hsumL, sumDur_append]
        · intro l hl
          rcases List.mem_append.mp hl with hl | hl
          · rcases List.mem_append.mp hl with hl2 | hl2
            · refine hBmem l ?_
              rw [← hLrw]
              exact List.mem_append_left _ hl2
            · refine hBmem l ?_
              rw [← hLrw]
              exact List.mem_append_right _ (List.mem_append_left _ hl2)
          · exact ihb l hl
      by_cases hj : bs2.join = []
      · -- the second extraction is empty: the block is emitted unchanged
        have hxe : (extractNoteBlock (x :: xs)).2 = [] := by rw [hex, hj]
        by_cases hdq : isDottedQuarterStart (x :: xs) = true
        · rw [downbeatLoop_dq_end m e x xs hdq hxe, hex]
          refine ⟨?_, ?_⟩
          · rw [hsumL, hj, sumDur_nil, sumDur_append]
            omega
          · intro l hl
            exact hBmem l (by rw [← hLrw, hj, List.append_nil]; exact hl)
        · by_cases hei : isEighthNoteStart (x :: xs) = true
          · rw [downbeatLoop_ei_end m e x xs (by simpa using hdq) hei hxe, hex]
            refine ⟨?_, ?_⟩
            · rw [hsumL, hj, sumDur_nil, sumDur_append]
              omega
            · intro l hl
              exact hBmem l (by rw [← hLrw, hj, List.append_nil]; exact hl)
          · -- step into the block: its tail is inert
            rw [downbeatLoop_step m e x xs (by simpa using hdq) (by simpa using hei)]
            cases r with
            | cons rl r2 =>
              have hxr : rl = x ∧ r2 ++ (b1 :: bs2).join = xs := by
                have := hL
                simp only [List.cons_append] at this
                exact ⟨by injection this, by injection this⟩
              obtain ⟨rfl, hxs⟩ := hxr
              have hr2 : ∀ l ∈ r2, inertLine l = true :=
                fun l hl => hr l (by simp [hl])
              have hlen2 : (r2 ++ (b1 :: bs2).join).length ≤ n := by
                rw [hxs]
                have h2 := hlenL
                simp only [List.length_cons] at h2
                omega
              obtain ⟨ihs, ihb⟩ := IH r2 (b1 :: bs2)
                (if rl.isMeasureStart then m + 1 else m) e hlen2 hr2 hbs
              rw [← hxs]
              constructor
              · rw [sumDur_cons, sumDur_cons, ihs]
              · intro l hl
                rcases List.mem_cons.mp hl with rfl | hl2
                · exact hBmem l (by simp)
                · exact ihb l hl2
            | nil =>
              -- the head is the opening line of b1; the tail of b1 is inert
              have hdq2 : isDottedQuarterStart (b1 ++ bs2.join) = false := by
                rw [show b1 ++ bs2.join = x :: xs from by simpa using hLrw]
                simpa using hdq
              have hei2 : isEighthNoteStart (b1 ++ bs2.join) = false := by
                rw [show b1 ++ bs2.join = x :: xs from by simpa using hLrw]
                simpa using hei
              have hinert := inert_tail_of_quiet b1 bs2.join hstd1 hdq2 hei2
              cases b1 with
              | nil => exact absurd rfl hb1ne
              | cons o body =>
                have hxo : o = x ∧ body ++ bs2.join = xs := by
                  have := hLrw
                  simp only [List.nil_append, List.cons_append] at this
                  exact ⟨by injection this, by injection this⟩
                obtain ⟨rfl, hxs⟩ := hxo
                have hbody : ∀ l ∈ body, inertLine l = true := by
                  intro l hl
                  exact hinert l (by simpa using hl)
                have hlen2 : (body ++ bs2.join).length ≤ n := by
                  rw [hxs]
                  have h2 := hlenL
                  simp only [List.length_cons] at h2
                  omega
                obtain ⟨ihs, ihb⟩ := IH body bs2
                  (if o.isMeasureStart then m + 1 else m) e hlen2 hbody
                  (fun b hb => hbs b (by simp [hb]))
                rw [← hxs]
                constructor
                · rw [sumDur_cons, sumDur_cons, ihs]
                · intro l hl
                  rcases List.mem_cons.mp hl with rfl | hl2
                  · exact hBmem l (by simp)
                  · exact ihb l hl2
      · -- a second block exists
        cases bs2 with
        | nil => simp at hj
        | cons b2 bs3 =>
          have hstd2 : stdBlock b2 = true := hbs b2 (by simp)
          have hgood2 : goodBlock b2 = true := (stdBlock_parts b2 hstd2).1
          have hb2ne : b2 ≠ [] := goodBlock_ne_nil b2 hgood2
          have hex2 : extractNoteBlock ((b2 :: bs3).join) = (b2, bs3.join) := by
            simp only [List.join_cons]
            exact extractNoteBlock_good b2 bs3.join hgood2
          have hxne : (extractNoteBlock (x :: xs)).2 ≠ [] := by rw [hex]; exact hj
          have hlen3 : (([] : List Line) ++ bs3.join).length ≤ n := by
            have h1 : (r ++ (b1 ++ (b2 ++ bs3.join))).length ≤ n + 1 := by
              rw [show r ++ (b1 ++ (b2 ++ bs3.join)) = x :: xs from by
                simpa [List.join_cons] using hL]
              exact hlenL
            simp only [List.length_append] at h1
            simp only [List.length_append, List.nil_append]
            have hb1l : 1 ≤ b1.length := by
              cases b1 with
              | nil => exact absurd rfl hb1ne
              | cons a b => simp
            omega
          have hsumL2 : sumDur (x :: xs)
              = sumDur r + sumDur b1 + sumDur b2 + sumDur bs3.join := by
            rw [show (x :: xs) = r ++ (b1 ++ (b2 ++ bs3.join)) from by
              simpa [List.join_cons] using hL.symm]
            simp only [sumDur_append]
            omega
          have mergeIH := IH [] bs3
          -- beam property of `r ++ b1`
          have hrb1Beam : ∀ l ∈ r ++ b1, beamNoDur l := by
            intro l hl
            rcases List.mem_append.mp hl with hl | hl
            · exact beamNoDur_of_durProp l (inertLine_parts l (hr l hl)).2.2.2.2.2
            · exact beamNoDur_of_durProp l (hbs1 l hl)
          by_cases hdq : isDottedQuarterStart (x :: xs) = true
          · by_cases hm : isDottedQuarterBlock (r ++ b1) = true
            · by_cases hm2 : isEighthNoteBlock b2 = true
              · -- merge case
                rw [downbeatLoop_dq_merge m e x xs hdq hxne
                  (by rw [hex]; exact hm) (by rw [hex, hex2]; exact hm2)]
                rw [hex, hex2]
                obtain ⟨ihs, ihb⟩ := mergeIH (if x.isMeasureStart then m + 1 else m)
                  (e + 2) hlen3 (by simp) (fun b hb => hbs b (by simp [hb]))
                simp only [List.nil_append] at ihs ihb
                constructor
                · rw [sumDur_append, ihs,
                    mergeSum_half r b1 b2 hr hstd1 hstd2 hm hm2, hsumL2]
                · intro l hl
                  rcases List.mem_append.mp hl with hl | hl
                  · exact beamOK_convertToHalfNote (r ++ b1) hrb1Beam l hl
                  · exact ihb l hl
              · rw [downbeatLoop_dq_pass m e x xs hdq hxne
                  (by rw [hex, hex2]; simp [hm2])]
                rw [hex]
                exact passCase _ _
            · rw [downbeatLoop_dq_pass m e x xs hdq hxne
                (by rw [hex]; simp [hm])]
              rw [hex]
              exact passCase _ _
          · by_cases hei : isEighthNoteStart (x :: xs) = true
            · by_cases hmA : isEighthNoteBlock (r ++ b1) = true
              · by_cases hmB : (isEighthNoteBlock b2 || isEighthRestBlock b2) = true
                · -- eighth pair merge
                  rw [downbeatLoop_ei_mergeN m e x xs (by simpa using hdq) hei hxne
                    (by rw [hex]; exact hmA) (by rw [hex, hex2]; exact hmB)]
                  rw [hex, hex2]
                  obtain ⟨ihs, ihb⟩ := mergeIH (if x.isMeasureStart then m + 1 else m)
                    (e + 2) hlen3 (by simp) (fun b hb => hbs b (by simp [hb]))
                  simp only [List.nil_append] at ihs ihb
                  constructor
                  · rw [sumDur_append, ihs,
                      mergeSum_quarter r b1 b2 hr hstd1 hstd2 hmA
                        (by simpa using hmB), hsumL2]
                  · intro l hl
                    rcases List.mem_append.mp hl with hl | hl
                    · exact beamOK_convertToQuarterNote (r ++ b1) hrb1Beam l hl
                    · exact ihb l hl
                · rw [downbeatLoop_ei_pass m e x xs (by simpa using hdq) hei hxne
                    (by rw [hex, hex2]; simp [hmB])
                    (by rw [hex, hex2]
                        rcases Bool.or_eq_false_iff.mp (by simpa using hmB) with ⟨h1, _⟩
                        simp [h1])]
                  rw [hex]
                  exact passCase _ _
              · by_cases hmR : isEighthRestBlock (r ++ b1) = true
                · by_cases hmB : isEighthNoteBlock b2 = true
                  · -- rest swallows note
                    rw [downbeatLoop_ei_mergeR m e x xs (by simpa using hdq) hei hxne
                      (by rw [hex]; simp [hmA]) (by rw [hex]; exact hmR)
                      (by rw [hex, hex2]; exact hmB)]
                    rw [hex, hex2]
                    obtain ⟨ihs, ihb⟩ := mergeIH (if x.isMeasureStart then m + 1 else m)
                      (e + 2) hlen3 (by simp) (fun b hb => hbs b (by simp [hb]))
                    simp only [List.nil_append] at ihs ihb
                    constructor
                    · rw [sumDur_append, ihs,
                        mergeSum_rest r b1 b2 hr hstd1 hstd2 hmR hmB, hsumL2]
                    · intro l hl
                      rcases List.mem_append.mp hl with hl | hl
                      · exact beamOK_convertToQuarterRest (r ++ b1) hrb1Beam l hl
                      · exact ihb l hl
                  · rw [downbeatLoop_ei_pass m e x xs (by simpa using hdq) hei hxne
                      (by rw [hex]; simp [hmA]) (by rw [hex, hex2]; simp [hmB])]
                    rw [hex]
                    exact passCase _ _
                · rw [downbeatLoop_ei_pass m e x xs (by simpa using hdq) hei hxne
                    (by rw [hex]; simp [hmA]) (by rw [hex]; simp [hmR])]
                  rw [hex]
                  exact passCase _ _
            · -- neither lookahead fired: walk one line
              rw [downbeatLoop_step m e x xs (by simpa using hdq) (by simpa using hei)]
              cases r with
              | cons rl r2 =>
                have hxr : rl = x ∧ r2 ++ (b1 :: (b2 :: bs3)).join = xs := by
                  have := hL
                  simp only [List.cons_append] at this
                  exact ⟨by injection this, by injection this⟩
                obtain ⟨rfl, hxs⟩ := hxr
                have hr2 : ∀ l ∈ r2, inertLine l = true :=
                  fun l hl => hr l (by simp [hl])
                have hlen2 : (r2 ++ (b1 :: (b2 :: bs3)).join).length ≤ n := by
                  rw [hxs]
                  have h2 := hlenL
                  simp only [List.length_cons] at h2
                  omega
                obtain ⟨ihs, ihb⟩ := IH r2 (b1 :: (b2 :: bs3))
                  (if rl.isMeasureStart then m + 1 else m) e hlen2 hr2 hbs
                rw [← hxs]
                constructor
                · rw [sumDur_cons, sumDur_cons, ihs]
                · intro l hl
                  rcases List.mem_cons.mp hl with rfl | hl2
                  · exact hBmem l (by simp)
                  · exact ihb l hl2
              | nil =>
                have hdq2 : isDottedQuarterStart (b1 ++ (b2 :: bs3).join) = false := by
                  rw [show b1 ++ (b2 :: bs3).join = x :: xs from by simpa using hLrw]
                  simpa using hdq
                have hei2 : isEighthNoteStart (b1 ++ (b2 :: bs3).join) = false := by
                  rw [show b1 ++ (b2 :: bs3).join = x :: xs from by simpa using hLrw]
                  simpa using hei
                have hinert := inert_tail_of_quiet b1 (b2 :: bs3).join hstd1 hdq2 hei2
                cases b1 with
                | nil => exact absurd rfl hb1ne
                | cons o body =>
                  have hxo : o = x ∧ body ++ (b2 :: bs3).join = xs := by
                    have := hLrw
                    simp only [List.nil_append, List.cons_append] at this
                    exact ⟨by injection this, by injection this⟩
                  obtain ⟨rfl, hxs⟩ := hxo
                  have hbody : ∀ l ∈ body, inertLine l = true := by
                    intro l hl
                    exact hinert l (by simpa using hl)
                  have hlen2 : (body ++ (b2 :: bs3).join).length ≤ n := by
                    rw [hxs]
                    have h2 := hlenL
                    simp only [List.length_cons] at h2
                    omega
                  obtain ⟨ihs, ihb⟩ := IH body (b2 :: bs3)
                    (if o.isMeasureStart then m + 1 else m) e hlen2 hbody
                    (fun b hb => hbs b (by simp [hb]))
                  rw [← hxs]
                  constructor
                  · rw [sumDur_cons, sumDur_cons, ihs]
                  · intro l hl
                    rcases List.mem_cons.mp hl with rfl | hl2
                    · exact hBmem l (by simp)
                    · exact ihb l hl2

/-! ### Concrete example lines -/

/-- A `<note ...>` opening line. -/
def lnOpen : Line := { isNoteOpen := true }

/-- A one-line `<pitch>...</pitch>` element (the classifiers only test the
substring `<pitch>`). -/
def lnPitch : Line := { hasPitch := true }

/-- A `<duration>n</duration>` line. -/
def lnDur (n : Nat) : Line := { duration := some n }

/-- A `<type>t</type>` line. -/
def lnType (t : NoteType) : Line := { noteType := some t }

/-- A `<dot/>` line. -/
def lnDot : Line := { hasDot := true }

/-- A `<rest/>` line. -/
def lnRest : Line := { hasRest := true }

/-- A `</note>` closing line. -/
def lnClose : Line := { isNoteClose := true }

/-- An eighth note of duration 1 (a score with `divisions = 2`). -/
def blkEighth : List Line := [lnOpen, lnPitch, lnDur 1, lnType .eighth, lnClose]

/-- An eighth rest of duration 1. -/
def blkEighthRest : List Line := [lnOpen, lnRest, lnDur 1, lnType .eighth, lnClose]

/-- A dotted quarter note of duration 3. -/
def blkDottedQuarter : List Line :=
  [lnOpen, lnPitch, lnDur 3, lnType .quarter, lnDot, lnClose]

/-- An eighth note carrying duration 2, as a score with `divisions = 4`
writes it. -/
def blkEighthDur2 : List Line := [lnOpen, lnPitch, lnDur 2, lnType .eighth, lnClose]

/-! ### Claim C1 -/

/--
C1 (amended).  Duration conservation of `apply_downbeat_rules`: for every
measure content that is a concatenation of standard note blocks
(`divisions = 2` layout: each block well-formed, at most 10 lines, exactly one
duration line free of beam/slur markers, eighth type exactly for duration 1
with a pitch or rest, dots only in duration-3 dotted quarters with the dot
within 5 lines of the quarter type line), the sum of the duration values after
the pass equals the sum before.  The conservation is NOT unconditional: see
the counterexample, where an eighth-note pair written with `divisions = 4`
(duration 2 each) is merged and the measure loses half its duration.
-/
theorem C1_duration_conservation (bs : List (List Line))
    (hbs : ∀ b ∈ bs, stdBlock b = true) :
    sumDur (applyDownbeatRules bs.join) = sumDur bs.join := by
  obtain ⟨hsum, hbeam⟩ :=
    loopMaster bs.join.length [] bs 0 0 (by simp) (by simp) hbs
  simp only [List.nil_append] at hsum hbeam
  unfold applyDownbeatRules
  rw [sumDur_removeBeams _ hbeam, hsum]

/-- Witness for C1: two standard eighth-note blocks merge into one quarter
note and the total duration 2 is conserved. -/
theorem C1_duration_conservation_witness :
    (∀ b ∈ [blkEighth, blkEighth], stdBlock b = true)
      ∧ sumDur (applyDownbeatRules ([blkEighth, blkEighth] : List (List Line)).join)
          = sumDur ([blkEighth, blkEighth] : List (List Line)).join :=
  ⟨by decide, C1_duration_conservation [blkEighth, blkEighth] (by decide)⟩

/--
C1 (counterexample).  On a measure of two eighth notes carrying duration 2
(`divisions = 4`), `apply_downbeat_rules` merges the pair — the block
classifiers test only `<type>eighth</type>` and `<pitch>`, never the duration —
and rewrites no duration (there is no `<duration>1</duration>` line), so the
measure's total drops from 4 to 2: the sum after the pass differs from the sum
before, refuting the claim as stated.
-/
theorem C1_duration_conservation_counterexample :
    sumDur (applyDownbeatRules (blkEighthDur2 ++ blkEighthDur2)) = 2
      ∧ sumDur (blkEighthDur2 ++ blkEighthDur2) = 4 := by
  have hstep := downbeatLoop_ei_mergeN 0 0 lnOpen
    ([lnPitch, lnDur 2, lnType .eighth, lnClose] ++ blkEighthDur2)
    (by decide) (by decide) (by decide) (by decide) (by decide)
  constructor
  · unfold applyDownbeatRules
    rw [show blkEighthDur2 ++ blkEighthDur2
        = lnOpen :: ([lnPitch, lnDur 2, lnType .eighth, lnClose] ++ blkEighthDur2)
      from rfl]
    rw [hstep]
    rw [show (extractNoteBlock (extractNoteBlock (lnOpen ::
        ([lnPitch, lnDur 2, lnType .eighth, lnClose] ++ blkEighthDur2))).2).2
        = ([] : List Line) from rfl]
    rw [downbeatLoop_nil]
    decide
  · decide

/-! ### Separated lines and the shape of converted blocks -/

/-- The type values carried by a list of lines, in order. -/
def typeLines (b : List Line) : List NoteType := b.filterMap (·.noteType)

/-- A line of pretty-printed MusicXML carries at most one of the features the
simplifier reacts to: a duration, a type, a dot, a beam, a slur, a pitch or a
rest marker each live on their own line. -/
def sepLine (l : Line) : Bool :=
  ([l.duration.isSome, l.noteType.isSome, l.hasDot, l.isBeam, l.isSlur,
    l.hasPitch, l.hasRest].count true) ≤ 1

theorem sepLine_parts (l : Line) (h : sepLine l = true) :
    (l.duration ≠ none → l.noteType = none ∧ l.hasDot = false ∧ l.isBeam = false
      ∧ l.isSlur = false ∧ l.hasPitch = false)
    ∧ (l.noteType ≠ none → l.duration = none ∧ l.isBeam = false ∧ l.isSlur = false
      ∧ l.hasPitch = false ∧ l.hasDot = false)
    ∧ (l.hasDot = true → l.duration = none ∧ l.noteType = none)
    ∧ (l.hasPitch = true → l.duration = none ∧ l.noteType = none
      ∧ l.isBeam = false ∧ l.isSlur = false ∧ l.hasDot = false)
    ∧ (l.hasRest = true → l.duration = none ∧ l.noteType = none
      ∧ l.isBeam = false ∧ l.isSlur = false) := by
  simp only [sepLine, decide_eq_true_eq] at h
  cases hd : l.duration <;> cases ht : l.noteType <;> cases hdot : l.hasDot
    <;> cases hb : l.isBeam <;> cases hs : l.isSlur <;> cases hp : l.hasPitch
    <;> cases hre : l.hasRest
    <;> simp_all [List.count_cons]

theorem convQNLine_of_sep_dur (l : Line) (hsep : sepLine l = true) :
    (convQNLine l).bind (·.duration)
      = l.duration.map (fun d => if d = 1 then 2 else d) := by
  have hsl := sepLine_parts l hsep
  unfold convQNLine
  cases hd : l.duration with
  | some d =>
    obtain ⟨ht, _, hb, hs, _⟩ := hsl.1 (by simp [hd])
    by_cases h1 : d = 1
    · subst h1
      simp [hd]
    · rw [if_neg (by simp [hd, h1]), if_neg (by simp [ht])]
      rw [if_neg (by simp [hb]), if_neg (by simp [hs])]
      simp [hd, h1]
  | none =>
    rw [if_neg (by simp [hd])]
    cases ht : l.noteType with
    | some t =>
      obtain ⟨_, hb, hs, _⟩ := hsl.2.1 (by simp [ht])
      by_cases h2 : t = NoteType.eighth
      · subst h2
        simp [ht, hd]
      · rw [if_neg (by simp [ht, h2]), if_neg (by simp [hb]), if_neg (by simp [hs])]
        simp [hd]
    | none =>
      by_cases hb : l.isBeam = true
      · simp [hb, hd]
      · rw [if_neg (by simp [ht]), if_neg (by simpa using hb)]
        by_cases hs : l.isSlur = true
        · simp [hs, hd]
        · rw [if_neg (by simpa using hs)]
          simp [hd]

theorem convQNLine_of_sep_type (l : Line) (hsep : sepLine l = true) :
    (convQNLine l).bind (·.noteType)
      = l.noteType.map (fun t => if t = NoteType.eighth then NoteType.quarter else t) := by
  have hsl := sepLine_parts l hsep
  unfold convQNLine
  cases ht : l.noteType with
  | some t =>
    obtain ⟨hd, hb, hs, _⟩ := hsl.2.1 (by simp [ht])
    rw [if_neg (by simp [hd])]
    by_cases h2 : t = NoteType.eighth
    · subst h2
      simp [ht]
    · rw [if_neg (by simp [ht, h2]), if_neg (by simp [hb]), if_neg (by simp [hs])]
      simp [ht, h2]
  | none =>
    cases hd : l.duration with
    | some d =>
      obtain ⟨ht2, _, hb, hs, _⟩ := hsl.1 (by simp [hd])
      by_cases h1 : d = 1
      · subst h1
        simp [hd, ht]
      · rw [if_neg (by simp [hd, h1]), if_neg (by simp [ht]),
          if_neg (by simp [hb]), if_neg (by simp [hs])]
        simp [ht]
    | none =>
      rw [if_neg (by simp [hd]), if_neg (by simp [ht])]
      by_cases hb : l.isBeam = true
      · simp [hb]
      · rw [if_neg (by simpa using hb)]
        by_cases hs : l.isSlur = true
        · simp [hs]
        · rw [if_neg (by simpa using hs)]
          simp [ht]

theorem convQNLine_of_pitch (l : Line) (hsep : sepLine l = true)
    (hp : l.hasPitch = true) : convQNLine l = some l := by
  have hsl := sepLine_parts l hsep
  obtain ⟨hd, ht, hb, hs, _⟩ := hsl.2.2.2.1 hp
  unfold convQNLine
  rw [if_neg (by simp [hd]), if_neg (by simp [ht]),
    if_neg (by simp [hb]), if_neg (by simp [hs])]

theorem convQNLine_pitch_flag (l l2 : Line) (h : convQNLine l = some l2) :
    l2.hasPitch = l.hasPitch := by
  unfold convQNLine at h
  by_cases h1 : (l.duration == some 1) = true
  · rw [if_pos h1] at h
    cases h
    rfl
  · rw [if_neg h1] at h
    by_cases h2 : (l.noteType == some NoteType.eighth) = true
    · rw [if_pos h2] at h
      cases h
      rfl
    · rw [if_neg h2] at h
      by_cases h3 : l.isBeam = true
      · simp [h3] at h
      · rw [if_neg h3] at h
        by_cases h4 : l.isSlur = true
        · simp [h4] at h
        · rw [if_neg h4] at h
          cases h
          rfl

theorem durLines_convQN (b : List Line) (hsep : ∀ l ∈ b, sepLine l = true) :
    durLines (convertToQuarterNote b)
      = (durLines b).map (fun d => if d = 1 then 2 else d) := by
  unfold convertToQuarterNote durLines
  rw [List.filterMap_filterMap, List.map_filterMap]
  exact List.filterMap_congr (fun l hl => convQNLine_of_sep_dur l (hsep l hl))

theorem typeLines_convQN (b : List Line) (hsep : ∀ l ∈ b, sepLine l = true) :
    typeLines (convertToQuarterNote b)
      = (typeLines b).map (fun t => if t = NoteType.eighth then NoteType.quarter else t) := by
  unfold convertToQuarterNote typeLines
  rw [List.filterMap_filterMap, List.map_filterMap]
  exact List.filterMap_congr (fun l hl => convQNLine_of_sep_type l (hsep l hl))

theorem pitch_convQN (b : List Line) (hsep : ∀ l ∈ b, sepLine l = true) :
    (convertToQuarterNote b).filter (·.hasPitch) = b.filter (·.hasPitch) := by
  induction b with
  | nil => rfl
  | cons l rest ih =>
    have ihr := ih (fun x hx => hsep x (by simp [hx]))
    unfold convertToQuarterNote at ihr ⊢
    rw [List.filterMap_cons]
    by_cases hp : l.hasPitch = true
    · rw [convQNLine_of_pitch l (hsep l (by simp)) hp]
      simp only [List.filter_cons]
      rw [if_pos (by simp [hp]), if_pos (by simp [hp]), ihr]
    · cases hc : convQNLine l with
      | none =>
        rw [List.filter_cons, if_neg (by simp [hp]), ihr]
      | some l2 =>
        have : l2.hasPitch = false := by
          rw [convQNLine_pitch_flag l l2 hc]
          simpa using hp
        simp only [List.filter_cons]
        rw [if_neg (by simp [this]), if_neg (by simp [hp]), ihr]

/-! ### Counters thread additively through the loop -/

theorem downbeatLoop_shift (n : Nat) : ∀ (ls : List Line) (m e : Nat),
    ls.length ≤ n →
    downbeatLoop m e ls
      = ((m + (downbeatLoop 0 0 ls).1.1, e + (downbeatLoop 0 0 ls).1.2),
         (downbeatLoop 0 0 ls).2) := by
  induction n with
  | zero =>
    intro ls m e hlen
    have : ls = [] := List.length_eq_zero.mp (Nat.le_zero.mp hlen)
    subst this
    rw [downbeatLoop_nil, downbeatLoop_nil]
    simp
  | succ n IH =>
    intro ls m e hlen
    cases ls with
    | nil =>
      rw [downbeatLoop_nil, downbeatLoop_nil]
      simp
    | cons l rest =>
      have hlen2 : rest.length ≤ n := by
        simp only [List.length_cons] at hlen
        omega
      have hr1len : (extractNoteBlock (l :: rest)).2.length ≤ n := by
        have := extractNoteBlock_snd_lt (l :: rest) (by simp)
        simp only [List.length_cons] at this ⊢
        omega
      have hr2len : (extractNoteBlock (extractNoteBlock (l :: rest)).2).2.length ≤ n := by
        have h2 := extractNoteBlock_snd_le (extractNoteBlock (l :: rest)).2
        have h3 := extractNoteBlock_snd_lt (l :: rest) (by simp)
        have h4 := hlen
        simp only [List.length_cons] at h3 h4
        omega
      by_cases hdq : isDottedQuarterStart (l :: rest) = true
      · by_cases h1 : (extractNoteBlock (l :: rest)).2 = []
        · rw [downbeatLoop_dq_end m e l rest hdq h1,
            downbeatLoop_dq_end 0 0 l rest hdq h1]
          by_cases hms : l.isMeasureStart = true
            <;> simp [hms]
            <;> omega
        · by_cases hm : isDottedQuarterBlock (extractNoteBlock (l :: rest)).1 = true
            ∧ isEighthNoteBlock (extractNoteBlock (extractNoteBlock (l :: rest)).2).1 = true
          · rw [downbeatLoop_dq_merge m e l rest hdq h1 hm.1 hm.2,
              downbeatLoop_dq_merge 0 0 l rest hdq h1 hm.1 hm.2,
              IH _ _ (e + 2) hr2len,
              IH _ (if l.isMeasureStart then 0 + 1 else 0) (0 + 2) hr2len]
            by_cases hms : l.isMeasureStart = true
              <;> simp [hms]
              <;> omega
          · have hmb : (isDottedQuarterBlock (extractNoteBlock (l :: rest)).1
                && isEighthNoteBlock (extractNoteBlock (extractNoteBlock (l :: rest)).2).1)
                  = false := by
              rcases Decidable.not_and_iff_or_not.mp hm with h | h
              · simp [Bool.and_eq_true, h]
              · simp [Bool.and_eq_true, h]
            rw [downbeatLoop_dq_pass m e l rest hdq h1 hmb,
              downbeatLoop_dq_pass 0 0 l rest hdq h1 hmb,
              IH _ _ e hr1len,
              IH _ (if l.isMeasureStart then 0 + 1 else 0) 0 hr1len]
            by_cases hms : l.isMeasureStart = true
              <;> simp [hms]
              <;> omega
      · have hdqf : isDottedQuarterStart (l :: rest) = false := by simpa using hdq
        by_cases hei : isEighthNoteStart (l :: rest) = true
        · by_cases h1 : (extractNoteBlock (l :: rest)).2 = []
          · rw [downbeatLoop_ei_end m e l rest hdqf hei h1,
              downbeatLoop_ei_end 0 0 l rest hdqf hei h1]
            by_cases hms : l.isMeasureStart = true
              <;> simp [hms]
              <;> omega
          · by_cases hmN : isEighthNoteBlock (extractNoteBlock (l :: rest)).1 = true
              ∧ (isEighthNoteBlock (extractNoteBlock (extractNoteBlock (l :: rest)).2).1
                || isEighthRestBlock (extractNoteBlock (extractNoteBlock (l :: rest)).2).1) = true
            · rw [downbeatLoop_ei_mergeN m e l rest hdqf hei h1 hmN.1 hmN.2,
                downbeatLoop_ei_mergeN 0 0 l rest hdqf hei h1 hmN.1 hmN.2,
                IH _ _ (e + 2) hr2len,
                IH _ (if l.isMeasureStart then 0 + 1 else 0) (0 + 2) hr2len]
              by_cases hms : l.isMeasureStart = true
                <;> simp [hms]
                <;> omega
            · have hmb : (isEighthNoteBlock (extractNoteBlock (l :: rest)).1
                  && (isEighthNoteBlock (extractNoteBlock (extractNoteBlock (l :: rest)).2).1
                    || isEighthRestBlock (extractNoteBlock (extractNoteBlock (l :: rest)).2).1))
                    = false := by
                rcases Decidable.not_and_iff_or_not.mp hmN with h | h
                · simp [Bool.and_eq_true, h]
                · simp only [Bool.and_eq_true, Bool.not_eq_true] at h ⊢
                  simp [h]
              by_cases hmR : isEighthRestBlock (extractNoteBlock (l :: rest)).1 = true
                ∧ isEighthNoteBlock (extractNoteBlock (extractNoteBlock (l :: rest)).2).1 = true
              · rw [downbeatLoop_ei_mergeR m e l rest hdqf hei h1 hmb hmR.1 hmR.2,
                  downbeatLoop_ei_mergeR 0 0 l rest hdqf hei h1 hmb hmR.1 hmR.2,
                  IH _ _ (e + 2) hr2len,
                  IH _ (if l.isMeasureStart then 0 + 1 else 0) (0 + 2) hr2len]
                by_cases hms : l.isMeasureStart = true
                  <;> simp [hms]
                  <;> omega
              · have hrb : (isEighthRestBlock (extractNoteBlock (l :: rest)).1
                    && isEighthNoteBlock (extractNoteBlock (extractNoteBlock (l :: rest)).2).1)
                      = false := by
                  rcases Decidable.not_and_iff_or_not.mp hmR with h | h
                  · simp [Bool.and_eq_true, h]
                  · simp [Bool.and_eq_true, h]
                rw [downbeatLoop_ei_pass m e l rest hdqf hei h1 hmb hrb,
                  downbeatLoop_ei_pass 0 0 l rest hdqf hei h1 hmb hrb,
                  IH _ _ e hr1len,
                  IH _ (if l.isMeasureStart then 0 + 1 else 0) 0 hr1len]
                by_cases hms : l.isMeasureStart = true
                  <;> simp [hms]
                  <;> omega
        · have heif : isEighthNoteStart (l :: rest) = false := by simpa using hei
          rw [downbeatLoop_step m e l rest hdqf heif,
            downbeatLoop_step 0 0 l rest hdqf heif,
            IH _ _ e hlen2,
            IH _ (if l.isMeasureStart then 0 + 1 else 0) 0 hlen2]
          by_cases hms : l.isMeasureStart = true
            <;> simp [hms]
            <;> omega

/-! ### Shape of converted rest and half-note blocks -/

theorem convQRLine_of_sep_dur (l : Line) (hsep : sepLine l = true) :
    (convQRLine l).bind (·.duration)
      = l.duration.map (fun d => if d = 1 then 2 else d) := by
  have hsl := sepLine_parts l hsep
  unfold convQRLine
  cases hd : l.duration with
  | some d =>
    obtain ⟨ht, _, hb, hs, _⟩ := hsl.1 (by simp [hd])
    by_cases h1 : d = 1
    · subst h1
      simp [hd]
    · rw [if_neg (by simp [hd, h1]), if_neg (by simp [ht]), if_neg (by simp [hb])]
      simp [hd, h1]
  | none =>
    rw [if_neg (by simp [hd])]
    cases ht : l.noteType with
    | some t =>
      obtain ⟨_, hb, hs, _⟩ := hsl.2.1 (by simp [ht])
      by_cases h2 : t = NoteType.eighth
      · subst h2
        simp [ht, hd]
      · rw [if_neg (by simp [ht, h2]), if_neg (by simp [hb])]
        simp [hd]
    | none =>
      rw [if_neg (by simp [ht])]
      by_cases hb : l.isBeam = true
      · simp [hb]
      · rw [if_neg (by simpa using hb)]
        simp [hd]

theorem convQRLine_of_sep_type (l : Line) (hsep : sepLine l = true) :
    (convQRLine l).bind (·.noteType)
      = l.noteType.map (fun t => if t = NoteType.eighth then NoteType.quarter else t) := by
  have hsl := sepLine_parts l hsep
  unfold convQRLine
  cases ht : l.noteType with
  | some t =>
    obtain ⟨hd, hb, hs, _⟩ := hsl.2.1 (by simp [ht])
    rw [if_neg (by simp [hd])]
    by_cases h2 : t = NoteType.eighth
    · subst h2
      simp [ht]
    · rw [if_neg (by simp [ht, h2]), if_neg (by simp [hb])]
      simp [ht, h2]
  | none =>
    cases hd : l.duration with
    | some d =>
      obtain ⟨ht2, _, hb, hs, _⟩ := hsl.1 (by simp [hd])
      by_cases h1 : d = 1
      · subst h1
        simp [hd, ht]
      · rw [if_neg (by simp [hd, h1]), if_neg (by simp [ht]), if_neg (by simp [hb])]
        simp [ht]
    | none =>
      rw [if_neg (by simp [hd]), if_neg (by simp [ht])]
      by_cases hb : l.isBeam = true
      · simp [hb]
      · rw [if_neg (by simpa using hb)]
        simp [ht]

theorem convQRLine_of_rest (l : Line) (hsep : sepLine l = true)
    (hre : l.hasRest = true) : convQRLine l = some l := by
  have hsl := sepLine_parts l hsep
  obtain ⟨hd, ht, hb, hs⟩ := hsl.2.2.2.2 hre
  unfold convQRLine
  rw [if_neg (by simp [hd]), if_neg (by simp [ht]), if_neg (by simp [hb])]

theorem convQRLine_rest_flag (l l2 : Line) (h : convQRLine l = some l2) :
    l2.hasRest = l.hasRest := by
  unfold convQRLine at h
  by_cases h1 : (l.duration == some 1) = true
  · rw [if_pos h1] at h
    cases h
    rfl
  · rw [if_neg h1] at h
    by_cases h2 : (l.noteType == some NoteType.eighth) = true
    · rw [if_pos h2] at h
      cases h
      rfl
    · rw [if_neg h2] at h
      by_cases h3 : l.isBeam = true
      · simp [h3] at h
      · rw [if_neg h3] at h
        cases h
        rfl

theorem durLines_convQR (b : List Line) (hsep : ∀ l ∈ b, sepLine l = true) :
    durLines (convertToQuarterRest b)
      = (durLines b).map (fun d => if d = 1 then 2 else d) := by
  unfold convertToQuarterRest durLines
  rw [List.filterMap_filterMap, List.map_filterMap]
  exact List.filterMap_congr (fun l hl => convQRLine_of_sep_dur l (hsep l hl))

theorem typeLines_convQR (b : List Line) (hsep : ∀ l ∈ b, sepLine l = true) :
    typeLines (convertToQuarterRest b)
      = (typeLines b).map (fun t => if t = NoteType.eighth then NoteType.quarter else t) := by
  unfold convertToQuarterRest typeLines
  rw [List.filterMap_filterMap, List.map_filterMap]
  exact List.filterMap_congr (fun l hl => convQRLine_of_sep_type l (hsep l hl))

theorem rest_convQR (b : List Line) (hsep : ∀ l ∈ b, sepLine l = true) :
    (convertToQuarterRest b).filter (·.hasRest) = b.filter (·.hasRest) := by
  induction b with
  | nil => rfl
  | cons l rest ih =>
    have ihr := ih (fun x hx => hsep x (by simp [hx]))
    unfold convertToQuarterRest at ihr ⊢
    rw [List.filterMap_cons]
    by_cases hre : l.hasRest = true
    · rw [convQRLine_of_rest l (hsep l (by simp)) hre]
      simp only [List.filter_cons]
      rw [if_pos (by simp [hre]), if_pos (by simp [hre]), ihr]
    · cases hc : convQRLine l with
      | none =>
        rw [List.filter_cons, if_neg (by simp [hre]), ihr]
      | some l2 =>
        have : l2.hasRest = false := by
          rw [convQRLine_rest_flag l l2 hc]
          simpa using hre
        simp only [List.filter_cons]
        rw [if_neg (by simp [this]), if_neg (by simp [hre]), ihr]

theorem durLines_convH (b : List Line) (flag : Bool)
    (hsep : ∀ l ∈ b, sepLine l = true) :
    durLines (convertToHalfNoteGo flag b)
      = (durLines b).map (fun d => if d = 3 then 4 else d) := by
  induction b generalizing flag with
  | nil => rfl
  | cons l rest ih =>
    have ihr : ∀ fl, List.filterMap (fun x => x.duration) (convertToHalfNoteGo fl rest)
        = List.map (fun d => if d = 3 then 4 else d)
            (List.filterMap (fun x => x.duration) rest) :=
      fun fl => ih fl (fun x hx => hsep x (by simp [hx]))
    have hsl := sepLine_parts l (hsep l (by simp))
    unfold convertToHalfNoteGo
    cases hd : l.duration with
    | some d =>
      obtain ⟨ht, hdot, hb, hs, _⟩ := hsl.1 (by simp [hd])
      by_cases h3 : d = 3
      · subst h3
        simp [hd, durLines, List.filterMap_cons, ihr]
      · rw [if_neg (by simp [hd, h3]), if_neg (by simp [ht]), if_neg (by simp [hdot]),
          if_neg (by simp [hb]), if_neg (by simp [hs])]
        simp [durLines, List.filterMap_cons, hd, ihr, h3]
    | none =>
      rw [if_neg (by simp [hd])]
      by_cases hqf : (l.noteType == some NoteType.quarter && flag) = true
      · rw [if_pos hqf]
        simp [durLines, List.filterMap_cons, hd, ihr]
      · rw [if_neg hqf]
        by_cases hdot : l.hasDot = true
        · rw [if_pos hdot]
          simp [durLines, List.filterMap_cons, hd, ihr]
        · rw [if_neg hdot]
          by_cases hb : l.isBeam = true
          · rw [if_pos hb]
            simp [durLines, List.filterMap_cons, hd, ihr]
          · rw [if_neg hb]
            by_cases hs : l.isSlur = true
            · rw [if_pos hs]
              simp [durLines, List.filterMap_cons, hd, ihr]
            · rw [if_neg hs]
              simp [durLines, List.filterMap_cons, hd, ihr]

theorem dotFree_convH (b : List Line) (flag : Bool)
    (hsep : ∀ l ∈ b, sepLine l = true) :
    ∀ l ∈ convertToHalfNoteGo flag b, l.hasDot = false := by
  induction b generalizing flag with
  | nil => simp [convertToHalfNoteGo]
  | cons l rest ih =>
    have ihr := fun fl => ih fl (fun x hx => hsep x (by simp [hx]))
    have hsl := sepLine_parts l (hsep l (by simp))
    intro l2 hl2
    unfold convertToHalfNoteGo at hl2
    by_cases h3 : (l.duration == some 3) = true
    · rw [if_pos h3] at hl2
      rcases List.mem_cons.mp hl2 with rfl | hm
      · exact (hsl.1 (by simp [show l.duration = some 3 by simpa using h3])).2.1
      · exact ihr true l2 hm
    · rw [if_neg h3] at hl2
      by_cases hqf : (l.noteType == some NoteType.quarter && flag) = true
      · rw [if_pos hqf] at hl2
        rcases List.mem_cons.mp hl2 with rfl | hm
        · have ht : l.noteType ≠ none := by
            have := (Bool.and_eq_true _ _).mp hqf
            simp only [beq_iff_eq] at this
            simp [this.1]
          exact (hsl.2.1 ht).2.2.2.2
        · exact ihr flag l2 hm
      · rw [if_neg hqf] at hl2
        by_cases hdot : l.hasDot = true
        · rw [if_pos hdot] at hl2
          exact ihr flag l2 hl2
        · rw [if_neg hdot] at hl2
          by_cases hb : l.isBeam = true
          · rw [if_pos hb] at hl2
            exact ihr flag l2 hl2
          · rw [if_neg hb] at hl2
            by_cases hs : l.isSlur = true
            · rw [if_pos hs] at hl2
              exact ihr flag l2 hl2
            · rw [if_neg hs] at hl2
              rcases List.mem_cons.mp hl2 with rfl | hm
              · simpa using hdot
              · exact ihr flag l2 hm

theorem convH_cons (flag : Bool) (l : Line) (rest : List Line) :
    convertToHalfNoteGo flag (l :: rest)
      = if l.duration == some 3 then
          { l with duration := some 4 } :: convertToHalfNoteGo true rest
        else if l.noteType == some .quarter && flag then
          { l with noteType := some .half } :: convertToHalfNoteGo flag rest
        else if l.hasDot then convertToHalfNoteGo flag rest
        else if l.isBeam then convertToHalfNoteGo flag rest
        else if l.isSlur then convertToHalfNoteGo flag rest
        else l :: convertToHalfNoteGo flag rest := rfl

theorem convH_split (x y : List Line) (flag : Bool) :
    convertToHalfNoteGo flag (x ++ y)
      = convertToHalfNoteGo flag x
        ++ convertToHalfNoteGo (flag || x.any (fun l => l.duration == some 3)) y := by
  induction x generalizing flag with
  | nil =>
    rw [show convertToHalfNoteGo flag ([] : List Line) = [] from rfl]
    simp
  | cons l rest ih =>
    rw [List.cons_append, convH_cons, convH_cons]
    by_cases h3 : (l.duration == some 3) = true
    · rw [if_pos h3, if_pos h3, ih true]
      rw [show (flag || (l :: rest).any (fun x => x.duration == some 3)) = true from by
        simp [h3]]
      rw [show (true || rest.any (fun x => x.duration == some 3)) = true from by simp]
      simp
    · have hany : (flag || (l :: rest).any (fun x => x.duration == some 3))
          = (flag || rest.any (fun x => x.duration == some 3)) := by
        simp only [List.any_cons]
        rw [show (l.duration == some 3) = false from by simpa using h3]
        simp
      rw [if_neg h3, if_neg h3]
      by_cases hqf : (l.noteType == some NoteType.quarter && flag) = true
      · rw [if_pos hqf, if_pos hqf, ih flag, hany]
        simp
      · rw [if_neg hqf, if_neg hqf]
        by_cases hdot : l.hasDot = true
        · rw [if_pos hdot, if_pos hdot, ih flag, hany]
        · rw [if_neg hdot, if_neg hdot]
          by_cases hb : l.isBeam = true
          · rw [if_pos hb, if_pos hb, ih flag, hany]
          · rw [if_neg hb, if_neg hb]
            by_cases hs : l.isSlur = true
            · rw [if_pos hs, if_pos hs, ih flag, hany]
            · rw [if_neg hs, if_neg hs, ih flag, hany]
              simp

theorem typeLines_convH_true (b : List Line)
    (hsep : ∀ l ∈ b, sepLine l = true) :
    typeLines (convertToHalfNoteGo true b)
      = (typeLines b).map (fun t => if t = NoteType.quarter then NoteType.half else t) := by
  induction b with
  | nil => rfl
  | cons l rest ih =>
    have ihr : List.filterMap (fun x => x.noteType) (convertToHalfNoteGo true rest)
        = List.map (fun t => if t = NoteType.quarter then NoteType.half else t)
            (List.filterMap (fun x => x.noteType) rest) :=
      ih (fun x hx => hsep x (by simp [hx]))
    have hsl := sepLine_parts l (hsep l (by simp))
    rw [convH_cons]
    cases ht : l.noteType with
    | some t =>
      obtain ⟨hd, hb, hs, _, hdot⟩ := hsl.2.1 (by simp [ht])
      rw [if_neg (by simp [hd])]
      by_cases hq : t = NoteType.quarter
      · subst hq
        rw [if_pos (by simp [ht])]
        simp [typeLines, List.filterMap_cons, ht, ihr]
      · rw [if_neg (by simp [ht, hq]), if_neg (by simp [hdot]),
          if_neg (by simp [hb]), if_neg (by simp [hs])]
        simp [typeLines, List.filterMap_cons, ht, ihr, hq]
    | none =>
      by_cases h3 : (l.duration == some 3) = true
      · rw [if_pos h3]
        simp [typeLines, List.filterMap_cons, ht, ihr]
      · rw [if_neg h3, if_neg (by simp [ht])]
        by_cases hdot : l.hasDot = true
        · rw [if_pos hdot]
          simp [typeLines, List.filterMap_cons, ht, ihr]
        · rw [if_neg hdot]
          by_cases hb : l.isBeam = true
          · rw [if_pos hb]
            simp [typeLines, List.filterMap_cons, ht, ihr]
          · rw [if_neg hb]
            by_cases hs : l.isSlur = true
            · rw [if_pos hs]
              simp [typeLines, List.filterMap_cons, ht, ihr]
            · rw [if_neg hs]
              simp [typeLines, List.filterMap_cons, ht, ihr]

theorem typeLines_convH_none (b : List Line) (flag : Bool)
    (hnt : ∀ l ∈ b, l.noteType = none) :
    typeLines (convertToHalfNoteGo flag b) = [] := by
  induction b generalizing flag with
  | nil => rfl
  | cons l rest ih =>
    have ihr : ∀ fl, List.filterMap (fun x => x.noteType) (convertToHalfNoteGo fl rest)
        = [] :=
      fun fl => ih fl (fun x hx => hnt x (by simp [hx]))
    have hl := hnt l (by simp)
    rw [convH_cons]
    by_cases h3 : (l.duration == some 3) = true
    · rw [if_pos h3]
      simp [typeLines, List.filterMap_cons, hl, ihr true]
    · rw [if_neg h3, if_neg (by simp [hl])]
      by_cases hdot : l.hasDot = true
      · rw [if_pos hdot]
        exact ihr flag
      · rw [if_neg hdot]
        by_cases hb : l.isBeam = true
        · rw [if_pos hb]
          exact ihr flag
        · rw [if_neg hb]
          by_cases hs : l.isSlur = true
          · rw [if_pos hs]
            exact ihr flag
          · rw [if_neg hs]
            simp [typeLines, List.filterMap_cons, hl, ihr flag]

theorem pitch_convH (b : List Line) (flag : Bool)
    (hsep : ∀ l ∈ b, sepLine l = true) :
    (convertToHalfNoteGo flag b).filter (·.hasPitch) = b.filter (·.hasPitch) := by
  induction b generalizing flag with
  | nil => rfl
  | cons l rest ih =>
    have ihr := fun fl => ih fl (fun x hx => hsep x (by simp [hx]))
    have hsl := sepLine_parts l (hsep l (by simp))
    rw [convH_cons]
    by_cases h3 : (l.duration == some 3) = true
    · have hp : l.hasPitch = false :=
        (hsl.1 (by simp [show l.duration = some 3 by simpa using h3])).2.2.2.2
      rw [if_pos h3]
      simp only [List.filter_cons]
      rw [if_neg (by simp [hp]), if_neg (by simp [hp])]
      exact ihr true
    · rw [if_neg h3]
      by_cases hqf : (l.noteType == some NoteType.quarter && flag) = true
      · have ht : l.noteType ≠ none := by
          have := (Bool.and_eq_true _ _).mp hqf
          simp only [beq_iff_eq] at this
          simp [this.1]
        have hp : l.hasPitch = false := (hsl.2.1 ht).2.2.2.1
        rw [if_pos hqf]
        simp only [List.filter_cons]
        rw [if_neg (by simp [hp]), if_neg (by simp [hp])]
        exact ihr flag
      · rw [if_neg hqf]
        by_cases hdot : l.hasDot = true
        · have hp : l.hasPitch = false := by
            by_contra hc
            have := (hsl.2.2.2.1 (by simpa using hc)).2.2.2.2
            simp_all
          rw [if_pos hdot]
          rw [List.filter_cons, if_neg (by simp [hp])]
          exact ihr flag
        · rw [if_neg hdot]
          by_cases hb : l.isBeam = true
          · have hp : l.hasPitch = false := by
              by_contra hc
              have := (hsl.2.2.2.1 (by simpa using hc)).2.2.1
              simp_all
            rw [if_pos hb]
            rw [List.filter_cons, if_neg (by simp [hp])]
            exact ihr flag
          · rw [if_neg hb]
            by_cases hs : l.isSlur = true
            · have hp : l.hasPitch = false := by
                by_contra hc
                have := (hsl.2.2.2.1 (by simpa using hc)).2.2.2.1
                simp_all
              rw [if_pos hs]
              rw [List.filter_cons, if_neg (by simp [hp])]
              exact ihr flag
            · rw [if_neg hs]
              simp only [List.filter_cons]
              by_cases hp : l.hasPitch = true
              · rw [if_pos (by simp [hp]), if_pos (by simp [hp]), ihr flag]
              · rw [if_neg (by simpa using hp), if_neg (by simpa using hp), ihr flag]

/-! ### The three merge rules at the head of the stream -/

theorem eighthStart_of (b X : List Line) (hlen : b.length ≤ 10)
    (hE : hasEighthType b = true) : isEighthNoteStart (b ++ X) = true := by
  by_contra hc
  have hf : isEighthNoteStart (b ++ X) = false := by simpa using hc
  have := not_eighth_of_not_start b X hlen hf
  simp only [hasEighthType, List.any_eq_true] at hE
  obtain ⟨l, hl, hle⟩ := hE
  exact this l hl (by simpa using hle)

theorem singleton_of_mem_len {α : Type} (x : α) (xs : List α)
    (hm : x ∈ xs) (hl : xs.length ≤ 1) : xs = [x] := by
  cases xs with
  | nil => simp at hm
  | cons a tl =>
    cases tl with
    | nil =>
      rcases List.mem_singleton.mp hm with rfl
      rfl
    | cons b tl2 => simp at hl

theorem stdBlock_typeLen (b : List Line) (h : stdBlock b = true) :
    (typeLines b).length ≤ 1 := by
  simp only [stdBlock, Bool.and_eq_true, decide_eq_true_eq] at h
  exact h.1.1.1.2

theorem typeLines_eq_eighth (b : List Line) (hstd : stdBlock b = true)
    (hE : hasEighthType b = true) : typeLines b = [NoteType.eighth] := by
  simp only [hasEighthType, List.any_eq_true] at hE
  obtain ⟨l, hl, hle⟩ := hE
  refine singleton_of_mem_len _ _ ?_ (stdBlock_typeLen b hstd)
  simp only [typeLines, List.mem_filterMap]
  exact ⟨l, hl, by simpa using hle⟩

theorem typeLines_eq_quarter (b : List Line) (hstd : stdBlock b = true)
    (hq : (b.any (fun l => l.noteType == some .quarter)) = true) :
    typeLines b = [NoteType.quarter] := by
  simp only [List.any_eq_true] at hq
  obtain ⟨l, hl, hle⟩ := hq
  refine singleton_of_mem_len _ _ ?_ (stdBlock_typeLen b hstd)
  simp only [typeLines, List.mem_filterMap]
  exact ⟨l, hl, by simpa using hle⟩

theorem loopMergeQN (b1 b2 rest : List Line) (m e : Nat)
    (h1 : stdBlock b1 = true) (h2 : stdBlock b2 = true)
    (hA : isEighthNoteBlock b1 = true)
    (hB : (isEighthNoteBlock b2 || isEighthRestBlock b2) = true)
    (hdq : isDottedQuarterStart (b1 ++ (b2 ++ rest)) = false) :
    (downbeatLoop m e (b1 ++ (b2 ++ rest))).2
      = convertToQuarterNote b1 ++ (downbeatLoop 0 0 rest).2 := by
  obtain ⟨hgood1, hlen1, _, _, _, _, _⟩ := stdBlock_parts b1 h1
  obtain ⟨hgood2, _, _, _, _, _, _⟩ := stdBlock_parts b2 h2
  have hE1 : hasEighthType b1 = true := by
    simp only [isEighthNoteBlock, Bool.and_eq_true] at hA
    exact hA.1
  have hei : isEighthNoteStart (b1 ++ (b2 ++ rest)) = true :=
    eighthStart_of b1 (b2 ++ rest) hlen1 hE1
  have hex : extractNoteBlock (b1 ++ (b2 ++ rest)) = (b1, b2 ++ rest) :=
    extractNoteBlock_good b1 (b2 ++ rest) hgood1
  have hex2 : extractNoteBlock (b2 ++ rest) = (b2, rest) :=
    extractNoteBlock_good b2 rest hgood2
  have hb2ne : b2 ++ rest ≠ [] := by
    cases b2 with
    | nil => simp [goodBlock] at hgood2
    | cons a tl => simp
  cases hb1 : b1 with
  | nil => simp [hb1, goodBlock] at hgood1
  | cons o t =>
    subst hb1
    simp only [List.cons_append] at hdq hei hex ⊢
    rw [downbeatLoop_ei_mergeN m e o (t ++ (b2 ++ rest)) hdq hei
      (by rw [hex]; exact hb2ne)
      (by rw [hex]; simpa using hA)
      (by rw [hex]
          simp only []
          rw [hex2]
          exact hB)]
    rw [hex]
    simp only []
    rw [hex2]
    simp only []
    rw [downbeatLoop_shift rest.length rest _ _ le_rfl]

theorem loopMergeQR (b1 b2 rest : List Line) (m e : Nat)
    (h1 : stdBlock b1 = true) (h2 : stdBlock b2 = true)
    (hnp : (b1.any (·.hasPitch)) = false)
    (hA : isEighthRestBlock b1 = true)
    (hB : isEighthNoteBlock b2 = true)
    (hdq : isDottedQuarterStart (b1 ++ (b2 ++ rest)) = false) :
    (downbeatLoop m e (b1 ++ (b2 ++ rest))).2
      = convertToQuarterRest b1 ++ (downbeatLoop 0 0 rest).2 := by
  obtain ⟨hgood1, hlen1, _, _, _, _, _⟩ := stdBlock_parts b1 h1
  obtain ⟨hgood2, _, _, _, _, _, _⟩ := stdBlock_parts b2 h2
  have hE1 : hasEighthType b1 = true := by
    simp only [isEighthRestBlock, Bool.and_eq_true] at hA
    exact hA.1
  have hnA : isEighthNoteBlock b1 = false := by
    simp only [isEighthNoteBlock, hnp, Bool.and_false]
  have hei : isEighthNoteStart (b1 ++ (b2 ++ rest)) = true :=
    eighthStart_of b1 (b2 ++ rest) hlen1 hE1
  have hex : extractNoteBlock (b1 ++ (b2 ++ rest)) = (b1, b2 ++ rest) :=
    extractNoteBlock_good b1 (b2 ++ rest) hgood1
  have hex2 : extractNoteBlock (b2 ++ rest) = (b2, rest) :=
    extractNoteBlock_good b2 rest hgood2
  have hb2ne : b2 ++ rest ≠ [] := by
    cases b2 with
    | nil => simp [goodBlock] at hgood2
    | cons a tl => simp
  cases hb1 : b1 with
  | nil => simp [hb1, goodBlock] at hgood1
  | cons o t =>
    subst hb1
    simp only [List.cons_append] at hdq hei hex hnA ⊢
    rw [downbeatLoop_ei_mergeR m e o (t ++ (b2 ++ rest)) hdq hei
      (by rw [hex]; exact hb2ne)
      (by rw [hex]
          simp only []
          rw [hnA, Bool.false_and])
      (by rw [hex]; simpa using hA)
      (by rw [hex]
          simp only []
          rw [hex2]
          exact hB)]
    rw [hex]
    simp only []
    rw [hex2]
    simp only []
    rw [downbeatLoop_shift rest.length rest _ _ le_rfl]

theorem loopMergeHalf (b1 b2 rest : List Line) (m e : Nat)
    (h1 : stdBlock b1 = true) (h2 : stdBlock b2 = true)
    (hA : isDottedQuarterBlock b1 = true)
    (hB : isEighthNoteBlock b2 = true) :
    (downbeatLoop m e (b1 ++ (b2 ++ rest))).2
      = convertToHalfNote b1 ++ (downbeatLoop 0 0 rest).2 := by
  obtain ⟨hgood1, hlen1, _, _, _, _, hdot1⟩ := stdBlock_parts b1 h1
  obtain ⟨hgood2, _, _, _, _, _, _⟩ := stdBlock_parts b2 h2
  have hD1 : (b1.any (·.hasDot)) = true := by
    simp only [isDottedQuarterBlock, Bool.and_eq_true] at hA
    exact hA.1.2
  have hdqp : dqPattern 15 b1 = true := (hdot1 (Or.inl hD1)).1
  have hdq : isDottedQuarterStart (b1 ++ (b2 ++ rest)) = true := by
    unfold isDottedQuarterStart
    exact dqPattern_mono 15 b1 (b2 ++ rest) hdqp
  have hex : extractNoteBlock (b1 ++ (b2 ++ rest)) = (b1, b2 ++ rest) :=
    extractNoteBlock_good b1 (b2 ++ rest) hgood1
  have hex2 : extractNoteBlock (b2 ++ rest) = (b2, rest) :=
    extractNoteBlock_good b2 rest hgood2
  have hb2ne : b2 ++ rest ≠ [] := by
    cases b2 with
    | nil => simp [goodBlock] at hgood2
    | cons a tl => simp
  cases hb1 : b1 with
  | nil => simp [hb1, goodBlock] at hgood1
  | cons o t =>
    subst hb1
    simp only [List.cons_append] at hdq hex ⊢
    rw [downbeatLoop_dq_merge m e o (t ++ (b2 ++ rest)) hdq
      (by rw [hex]; exact hb2ne)
      (by rw [hex]; simpa using hA)
      (by rw [hex]
          simp only []
          rw [hex2]
          exact hB)]
    rw [hex]
    simp only []
    rw [hex2]
    simp only []
    rw [downbeatLoop_shift rest.length rest _ _ le_rfl]

/-! ### C2: the three merge rules -/

/--
C2 (amended).  Merge correctness of `apply_downbeat_rules`, for adjacent
standard blocks at the head of the stream with separated lines: (1) an eighth
note block followed by an eighth note or eighth rest block becomes the first
block converted to a quarter note (duration rewritten 1 to 2, type eighth to
quarter, pitch lines kept verbatim) and the second block is discarded,
PROVIDED the 15-line dotted-quarter lookahead does not match at that point;
(2) an eighth rest block followed by an eighth note block becomes a quarter
rest under the same lookahead proviso; (3) a dotted quarter block followed by
an eighth note block becomes a half note (duration 3 to 4, dot lines removed,
pitch kept; the quarter type line becomes half when it follows the duration
line, as in pretty-printed MusicXML).  The lookahead proviso is NOT implied by
adjacency: the counterexample shows an adjacent eighth pair left unmerged
because a dotted quarter later in the window hijacks the scan.
-/
theorem C2_merge_rules (b1 b2 rest : List Line)
    (h1 : stdBlock b1 = true) (h2 : stdBlock b2 = true)
    (hsep1 : ∀ l ∈ b1, sepLine l = true) :
    (isDottedQuarterStart (b1 ++ (b2 ++ rest)) = false →
      isEighthNoteBlock b1 = true →
      (isEighthNoteBlock b2 || isEighthRestBlock b2) = true →
      (downbeatLoop 0 0 (b1 ++ (b2 ++ rest))).2
          = convertToQuarterNote b1 ++ (downbeatLoop 0 0 rest).2
        ∧ durLines (convertToQuarterNote b1) = [2]
        ∧ typeLines (convertToQuarterNote b1) = [NoteType.quarter]
        ∧ (convertToQuarterNote b1).filter (·.hasPitch) = b1.filter (·.hasPitch))
    ∧ (isDottedQuarterStart (b1 ++ (b2 ++ rest)) = false →
      b1.any (·.hasPitch) = false →
      isEighthRestBlock b1 = true →
      isEighthNoteBlock b2 = true →
      (downbeatLoop 0 0 (b1 ++ (b2 ++ rest))).2
          = convertToQuarterRest b1 ++ (downbeatLoop 0 0 rest).2
        ∧ durLines (convertToQuarterRest b1) = [2]
        ∧ typeLines (convertToQuarterRest b1) = [NoteType.quarter]
        ∧ (convertToQuarterRest b1).filter (·.hasRest) = b1.filter (·.hasRest))
    ∧ (isDottedQuarterBlock b1 = true →
      isEighthNoteBlock b2 = true →
      (downbeatLoop 0 0 (b1 ++ (b2 ++ rest))).2
          = convertToHalfNote b1 ++ (downbeatLoop 0 0 rest).2
        ∧ durLines (convertToHalfNote b1) = [4]
        ∧ (∀ l ∈ convertToHalfNote b1, l.hasDot = false)
        ∧ (convertToHalfNote b1).filter (·.hasPitch) = b1.filter (·.hasPitch)
        ∧ ∀ x y, b1 = x ++ y →
            x.any (fun l => l.duration == some 3) = true →
            (∀ l ∈ x, l.noteType = none) →
            typeLines (convertToHalfNote b1) = [NoteType.half]) := by
  refine ⟨?_, ?_, ?_⟩
  · intro hdq hA hB
    have hE : hasEighthType b1 = true := by
      simp only [isEighthNoteBlock, Bool.and_eq_true] at hA
      exact hA.1
    have hd1 : durLines b1 = [1] := by
      have hee := (stdBlock_parts b1 h1).2.2.2.2.1
      rw [hE] at hee
      simpa using hee.symm
    refine ⟨loopMergeQN b1 b2 rest 0 0 h1 h2 hA hB hdq, ?_, ?_,
      pitch_convQN b1 hsep1⟩
    · rw [durLines_convQN b1 hsep1, hd1]
      rfl
    · rw [typeLines_convQN b1 hsep1, typeLines_eq_eighth b1 h1 hE]
      rfl
  · intro hdq hnp hA hB
    have hE : hasEighthType b1 = true := by
      simp only [isEighthRestBlock, Bool.and_eq_true] at hA
      exact hA.1
    have hd1 : durLines b1 = [1] := by
      have hee := (stdBlock_parts b1 h1).2.2.2.2.1
      rw [hE] at hee
      simpa using hee.symm
    refine ⟨loopMergeQR b1 b2 rest 0 0 h1 h2 hnp hA hB hdq, ?_, ?_,
      rest_convQR b1 hsep1⟩
    · rw [durLines_convQR b1 hsep1, hd1]
      rfl
    · rw [typeLines_convQR b1 hsep1, typeLines_eq_eighth b1 h1 hE]
      rfl
  · intro hA hB
    have hdot : b1.any (·.hasDot) = true := by
      simp only [isDottedQuarterBlock, Bool.and_eq_true] at hA
      exact hA.1.2
    have hq : b1.any (fun l => l.noteType == some .quarter) = true := by
      simp only [isDottedQuarterBlock, Bool.and_eq_true] at hA
      exact hA.1.1
    have hd3 : durLines b1 = [3] :=
      ((stdBlock_parts b1 h1).2.2.2.2.2.2 (Or.inl hdot)).2.1
    refine ⟨loopMergeHalf b1 b2 rest 0 0 h1 h2 hA hB, ?_, ?_, ?_, ?_⟩
    · show durLines (convertToHalfNoteGo false b1) = [4]
      rw [durLines_convH b1 false hsep1, hd3]
      rfl
    · exact dotFree_convH b1 false hsep1
    · exact pitch_convH b1 false hsep1
    · intro x y hxy hx3 hxnt
      have htq : typeLines b1 = [NoteType.quarter] :=
        typeLines_eq_quarter b1 h1 hq
      subst hxy
      have htx : typeLines x = [] := by
        simp only [typeLines, List.filterMap_eq_nil]
        exact hxnt
      have hty : typeLines y = [NoteType.quarter] := by
        have happ : typeLines (x ++ y) = typeLines x ++ typeLines y := by
          simp [typeLines, List.filterMap_append]
        rw [happ, htx] at htq
        simpa using htq
      have hsepy : ∀ l ∈ y, sepLine l = true :=
        fun l hl => hsep1 l (by simp [hl])
      show typeLines (convertToHalfNoteGo false (x ++ y)) = [NoteType.half]
      rw [convH_split x y false]
      have hflag : (false || x.any (fun l => l.duration == some 3)) = true := by
        simp [hx3]
      rw [hflag]
      rw [show typeLines (convertToHalfNoteGo false x ++ convertToHalfNoteGo true y)
          = typeLines (convertToHalfNoteGo false x)
            ++ typeLines (convertToHalfNoteGo true y) from by
        simp [typeLines, List.filterMap_append]]
      rw [typeLines_convH_none x false hxnt, typeLines_convH_true y hsepy, hty]
      rfl

/-- Witness for C2: an eighth note block followed by an eighth rest block,
with nothing after them, merges into one quarter note keeping the pitch. -/
theorem C2_merge_rules_witness :
    (downbeatLoop 0 0 (blkEighth ++ (blkEighthRest ++ []))).2
        = convertToQuarterNote blkEighth ++ (downbeatLoop 0 0 []).2
      ∧ durLines (convertToQuarterNote blkEighth) = [2]
      ∧ typeLines (convertToQuarterNote blkEighth) = [NoteType.quarter]
      ∧ (convertToQuarterNote blkEighth).filter (·.hasPitch)
          = blkEighth.filter (·.hasPitch) :=
  (C2_merge_rules blkEighth blkEighthRest [] (by decide) (by decide)
      (by decide)).1 (by decide) (by decide) (by decide)

/--
C2 (counterexample).  Two adjacent eighth note blocks followed by a dotted
quarter block: the claim as stated says the eighth pair merges into a quarter
note, but the 15-line dotted-quarter lookahead fires at the first eighth note
(it sees the quarter-plus-dot pattern of the LATER dotted quarter), the
dotted-quarter branch extracts the eighth block, fails its merge test, and
emits the block unchanged — the `elif` never lets the eighth rule run.  The
pass returns the content unchanged: no pair is merged.
-/
theorem C2_merge_rules_counterexample :
    (stdBlock blkEighth = true ∧ isEighthNoteBlock blkEighth = true)
    ∧ applyDownbeatRules (blkEighth ++ (blkEighth ++ blkDottedQuarter))
        = blkEighth ++ (blkEighth ++ blkDottedQuarter)
    ∧ durLines (blkEighth ++ (blkEighth ++ blkDottedQuarter)) = [1, 1, 3] := by
  have e3 : ∀ m e : Nat, (downbeatLoop m e blkDottedQuarter).2 = blkDottedQuarter := by
    intro m e
    rw [show blkDottedQuarter
        = lnOpen :: [lnPitch, lnDur 3, lnType .quarter, lnDot, lnClose] from rfl]
    rw [downbeatLoop_dq_end m e _ _ (by decide) (by decide)]
    rfl
  have e2 : ∀ m e : Nat, (downbeatLoop m e (blkEighth ++ blkDottedQuarter)).2
      = blkEighth ++ blkDottedQuarter := by
    intro m e
    rw [show blkEighth ++ blkDottedQuarter
        = lnOpen :: ([lnPitch, lnDur 1, lnType .eighth, lnClose]
            ++ blkDottedQuarter) from rfl]
    rw [downbeatLoop_dq_pass m e _ _ (by decide) (by decide) (by decide)]
    rw [show extractNoteBlock (lnOpen :: ([lnPitch, lnDur 1, lnType .eighth, lnClose]
        ++ blkDottedQuarter)) = (blkEighth, blkDottedQuarter) from rfl]
    simp only []
    rw [e3]
    rfl
  refine ⟨⟨by decide, by decide⟩, ?_, by decide⟩
  unfold applyDownbeatRules
  rw [show blkEighth ++ (blkEighth ++ blkDottedQuarter)
      = lnOpen :: ([lnPitch, lnDur 1, lnType .eighth, lnClose]
          ++ (blkEighth ++ blkDottedQuarter)) from rfl]
  rw [downbeatLoop_dq_pass 0 0 _ _ (by decide) (by decide) (by decide)]
  rw [show extractNoteBlock (lnOpen :: ([lnPitch, lnDur 1, lnType .eighth, lnClose]
      ++ (blkEighth ++ blkDottedQuarter)))
      = (blkEighth, blkEighth ++ blkDottedQuarter) from rfl]
  simp only []
  rw [e2]
  decide

/-! ### C8: the pass statistics live on the object, not in the return value -/

/--
C8 (amended).  `apply_downbeat_rules` returns only the rewritten content; its
running counters (`measures_processed`, `eighth_notes_converted`) are NOT part
of the return value but are mutable attributes of the `MusicXMLSimplifier`
object, initialised once in `__init__` and incremented in place.  The content
output is independent of the stored counters, but the counters accumulate
across invocations: after a run they hold their previous value plus the fresh
run's delta, and a second run on the same content doubles the delta instead
of restarting from zero.
-/
theorem C8_counters_persist (s : SimpState) (ls : List Line) :
    (applyDownbeatRulesS s ls).2 = applyDownbeatRules ls
    ∧ (applyDownbeatRulesS s ls).1.measures_processed
        = s.measures_processed + (downbeatLoop 0 0 ls).1.1
    ∧ (applyDownbeatRulesS s ls).1.eighth_notes_converted
        = s.eighth_notes_converted + (downbeatLoop 0 0 ls).1.2
    ∧ (applyDownbeatRulesS (applyDownbeatRulesS s ls).1 ls).1.eighth_notes_converted
        = s.eighth_notes_converted + 2 * (downbeatLoop 0 0 ls).1.2 := by
  have hshift := downbeatLoop_shift ls.length ls
    s.measures_processed s.eighth_notes_converted le_rfl
  refine ⟨?_, ?_, ?_, ?_⟩
  · show removeBeams
        (downbeatLoop s.measures_processed s.eighth_notes_converted ls).2
      = removeBeams (downbeatLoop 0 0 ls).2
    rw [hshift]
  · show (downbeatLoop s.measures_processed s.eighth_notes_converted ls).1.1
      = s.measures_processed + (downbeatLoop 0 0 ls).1.1
    rw [hshift]
  · show (downbeatLoop s.measures_processed s.eighth_notes_converted ls).1.2
      = s.eighth_notes_converted + (downbeatLoop 0 0 ls).1.2
    rw [hshift]
  · show (downbeatLoop
        (downbeatLoop s.measures_processed s.eighth_notes_converted ls).1.1
        (downbeatLoop s.measures_processed s.eighth_notes_converted ls).1.2
        ls).1.2
      = s.eighth_notes_converted + 2 * (downbeatLoop 0 0 ls).1.2
    rw [hshift]
    rw [downbeatLoop_shift ls.length ls _ _ le_rfl]
    simp only []
    omega

/--
C8 (counterexample).  Two invocations of the pass on the same object: the
first run on an eighth-note pair leaves `eighth_notes_converted = 2` on the
object, and a second run on the same content finds the counter still set and
raises it to 4 — the counter state persists across invocations instead of
being returned and dropped.
-/
theorem C8_counters_persist_counterexample :
    (applyDownbeatRulesS {} (blkEighth ++ blkEighthRest)).1.eighth_notes_converted = 2
    ∧ (applyDownbeatRulesS
        (applyDownbeatRulesS {} (blkEighth ++ blkEighthRest)).1
        (blkEighth ++ blkEighthRest)).1.eighth_notes_converted = 4 := by
  have key : ∀ m e : Nat, downbeatLoop m e (blkEighth ++ blkEighthRest)
      = ((m, e + 2), convertToQuarterNote blkEighth) := by
    intro m e
    rw [show blkEighth ++ blkEighthRest
        = lnOpen :: ([lnPitch, lnDur 1, lnType .eighth, lnClose]
            ++ blkEighthRest) from rfl]
    rw [downbeatLoop_ei_mergeN m e _ _ (by decide) (by decide) (by decide)
      (by decide) (by decide)]
    rw [show (extractNoteBlock (extractNoteBlock (lnOpen ::
        ([lnPitch, lnDur 1, lnType .eighth, lnClose] ++ blkEighthRest))).2).2
        = ([] : List Line) from rfl]
    rw [downbeatLoop_nil]
    rw [show (extractNoteBlock (lnOpen ::
        ([lnPitch, lnDur 1, lnType .eighth, lnClose] ++ blkEighthRest))).1
        = blkEighth from rfl]
    rw [show (if lnOpen.isMeasureStart then m + 1 else m) = m from rfl]
    simp
  constructor
  · show (downbeatLoop 0 0 (blkEighth ++ blkEighthRest)).1.2 = 2
    rw [key]
  · show (downbeatLoop
        (downbeatLoop 0 0 (blkEighth ++ blkEighthRest)).1.1
        (downbeatLoop 0 0 (blkEighth ++ blkEighthRest)).1.2
        (blkEighth ++ blkEighthRest)).1.2 = 4
    rw [key 0 0]
    rw [key]

/-! ## The beginner range transposer (`transpose_high_notes_for_beginners`) -/

/-- Direction of an octave shift (`transpose_direction`). -/
inductive Dir where
  | up
  | down
deriving DecidableEq, Repr

/-- A parsed `<pitch>` element: step letter, octave, alter. -/
structure NoteP where
  step : Step
  octave : Int
  alter : Int
deriving DecidableEq, Repr

/-- `note_values` table of `calculate_midi_note`. -/
def noteValues : Step → Int
  | .C => 0
  | .D => 2
  | .E => 4
  | .F => 5
  | .G => 7
  | .A => 9
  | .B => 11

/-- `calculate_midi_note`: `(octave * 12) + note_values[step] + alter`. -/
def calculate_midi_note (step : Step) (octave alter : Int) : Int :=
  octave * 12 + noteValues step + alter

/-- One entry of `notes_info`: pitch fields, measure number and the
transposition decision (the `reason` string is omitted; no decision reads it). -/
structure NoteInfo where
  step : Step
  octave : Int
  alter : Int
  measure_num : Nat
  needs_transposition : Bool
  transpose_direction : Option Dir
deriving DecidableEq, Repr

/-- MIDI value of a `notes_info` entry. -/
def midiOf (n : NoteInfo) : Int := calculate_midi_note n.step n.octave n.alter

/-- The initial range decision of `transpose_high_notes_for_beginners`:
euphonium marks notes at or below F2 for an upward shift; every other
instrument marks notes at or above C#5 for a downward shift. -/
def rangeNeeds (instr : String) (p : NoteP) : Bool × Option Dir :=
  if instr == "c_euphonium" then
    if p.octave < 2 ∨ (p.octave = 2 ∧ (p.step = Step.E ∨ p.step = Step.F)) then
      (true, some Dir.up)
    else (false, none)
  else
    if p.octave > 5
        ∨ (p.octave = 5 ∧ p.step ∈ [Step.D, Step.E, Step.F, Step.G, Step.A, Step.B])
        ∨ (p.octave = 5 ∧ p.step = Step.C ∧ p.alter = 1) then
      (true, some Dir.down)
    else (false, none)

/-- The `notes_info` list: notes of all measures flattened in order, with
1-based measure numbers and the initial range decision. -/
def buildNotesInfo (instr : String) (measures : List (List NoteP)) : List NoteInfo :=
  (measures.mapIdx (fun idx ms => ms.map (fun p =>
    { step := p.step, octave := p.octave, alter := p.alter,
      measure_num := idx + 1,
      needs_transposition := (rangeNeeds instr p).1,
      transpose_direction := (rangeNeeds instr p).2 }))).join

/-- `min_midi_note` of `apply_nearby_note_logic`: 41 (F2) for euphonium,
60 for everything else. -/
def minMidiFor (instr : String) : Int :=
  if instr == "c_euphonium" then 41 else 60

/-- Context MIDI values for position `i`: up to 3 preceding and up to 3
following entries, restricted to `cur`'s measure. -/
def ctxMidis (notes : List NoteInfo) (i : Nat) (cur : NoteInfo) : List Int :=
  (((notes.take i).drop (i - 3)).filter
      (fun n => n.measure_num == cur.measure_num)).map midiOf
    ++ (((notes.drop (i + 1)).take 3).filter
      (fun n => n.measure_num == cur.measure_num)).map midiOf

/-- `max_jump`: largest absolute distance from `m` to a context value
(0 on an empty context, which the caller rules out). -/
def maxJump (m : Int) (ctx : List Int) : Int :=
  (ctx.map (fun c => |m - c|)).foldl max 0

/-- The body of `apply_nearby_note_logic` for one index: skip notes already
marked; with a nonempty same-measure context and a jump above 7, shift down
if that stays at or above `min_midi_note` and strictly shrinks the jump, else
shift up if that stays at or below 84 and strictly shrinks the jump. -/
def smoothStep (minMidi : Int) (notes : List NoteInfo) (i : Nat) (cur : NoteInfo) : NoteInfo :=
  if cur.needs_transposition then cur
  else if ctxMidis notes i cur = [] then cur
  else if 7 < maxJump (midiOf cur) (ctxMidis notes i cur) then
    if minMidi ≤ midiOf cur - 12
        ∧ maxJump (midiOf cur - 12) (ctxMidis notes i cur)
            < maxJump (midiOf cur) (ctxMidis notes i cur) then
      { cur with needs_transposition := true, transpose_direction := some Dir.down }
    else if midiOf cur + 12 ≤ 84
        ∧ maxJump (midiOf cur + 12) (ctxMidis notes i cur)
            < maxJump (midiOf cur) (ctxMidis notes i cur) then
      { cur with needs_transposition := true, transpose_direction := some Dir.up }
    else cur
  else cur

/-- `apply_nearby_note_logic`: returns the input untouched below 2 entries;
otherwise revises every entry by `smoothStep`.  (The Python loop mutates only
the entry at the index it visits, and the pitch fields it reads are never
written, so the loop is this pure map.) -/
def apply_nearby_note_logic (instr : String) (notes : List NoteInfo) : List NoteInfo :=
  if notes.length < 2 then notes
  else notes.mapIdx (fun i cur => smoothStep (minMidiFor instr) notes i cur)

/-- The decision lookup of `transpose_pitch_block`: the FIRST `notes_info`
entry with the same `(step, octave, alter)` — the measure is not compared. -/
def lookupDecision (infos : List NoteInfo) (p : NoteP) : Option NoteInfo :=
  infos.find? (fun n => n.step == p.step && n.octave == p.octave && n.alter == p.alter)

/-- Application of a decision to one pitch block. -/
def transposePitch (infos : List NoteInfo) (p : NoteP) : NoteP :=
  match lookupDecision infos p with
  | some d =>
    if d.needs_transposition then
      if d.transpose_direction == some Dir.up then { p with octave := p.octave + 1 }
      else { p with octave := p.octave - 1 }
    else p
  | none => p

/-- `transpose_high_notes_for_beginners` over the structured view: build
`notes_info`, run the nearby-note logic, then rewrite every pitch by the
looked-up decision. -/
def transpose_high_notes_for_beginners (instr : String)
    (measures : List (List NoteP)) : List (List NoteP) :=
  measures.map (fun ms => ms.map (transposePitch
    (apply_nearby_note_logic instr (buildNotesInfo instr measures))))

theorem lookupDecision_self (n : NoteInfo) (rest : List NoteInfo) (p : NoteP)
    (h1 : n.step = p.step) (h2 : n.octave = p.octave) (h3 : n.alter = p.alter) :
    lookupDecision (n :: rest) p = some n := by
  unfold lookupDecision
  apply List.find?_cons_of_pos
  simp [h1, h2, h3]

theorem singleton_transpose (instr : String) (p : NoteP) :
    transpose_high_notes_for_beginners instr [[p]]
      = [[if (rangeNeeds instr p).1 then
            (if (rangeNeeds instr p).2 == some Dir.up then
              { p with octave := p.octave + 1 }
            else { p with octave := p.octave - 1 })
          else p]] := by
  unfold transpose_high_notes_for_beginners
  simp only [List.map_cons, List.map_nil]
  rw [show apply_nearby_note_logic instr (buildNotesInfo instr [[p]])
      = [{ step := p.step, octave := p.octave, alter := p.alter, measure_num := 1,
           needs_transposition := (rangeNeeds instr p).1,
           transpose_direction := (rangeNeeds instr p).2 }] from rfl]
  unfold transposePitch
  rw [lookupDecision_self _ _ _ rfl rfl rfl]

theorem rangeNeeds_euph (p : NoteP) :
    rangeNeeds "c_euphonium" p = (true, some Dir.up)
      ∨ rangeNeeds "c_euphonium" p = (false, none) := by
  unfold rangeNeeds
  rw [if_pos (show (("c_euphonium" : String) == "c_euphonium") = true by decide)]
  by_cases h : p.octave < 2 ∨ (p.octave = 2 ∧ (p.step = Step.E ∨ p.step = Step.F))
  · left
    rw [if_pos h]
  · right
    rw [if_neg h]

theorem rangeNeeds_notEuph (instr : String) (p : NoteP)
    (hne : (instr == "c_euphonium") = false) :
    rangeNeeds instr p = (true, some Dir.down)
      ∨ rangeNeeds instr p = (false, none) := by
  unfold rangeNeeds
  rw [if_neg (by simp [hne])]
  by_cases h : p.octave > 5
      ∨ (p.octave = 5 ∧ p.step ∈ [Step.D, Step.E, Step.F, Step.G, Step.A, Step.B])
      ∨ (p.octave = 5 ∧ p.step = Step.C ∧ p.alter = 1)
  · left
    rw [if_pos h]
  · right
    rw [if_neg h]

/--
C3 (amended).  The hard range constraint of
`transpose_high_notes_for_beginners` is one-directional per instrument: for a
lone note (no melodic context, so the nearby-note logic never fires), the
euphonium profile shifts the note UP one octave exactly when it lies at or
below F2 (`octave < 2`, or `octave = 2` with step E or F) and otherwise leaves
it unchanged, and every other profile (the alto-sax branch) shifts the note
DOWN one octave exactly when it lies at or above C#5 and otherwise leaves it
unchanged.  The range decision never produces a downward shift for euphonium
nor an upward shift for any other instrument: a note below the low bound of a
non-euphonium instrument, or above the high bound of the euphonium, is NOT
moved back into range.
-/
theorem C3_hard_range (p : NoteP) :
    transpose_high_notes_for_beginners "c_euphonium" [[p]]
      = [[if (rangeNeeds "c_euphonium" p).1 then { p with octave := p.octave + 1 } else p]]
    ∧ transpose_high_notes_for_beginners "eb_alto_sax" [[p]]
      = [[if (rangeNeeds "eb_alto_sax" p).1 then { p with octave := p.octave - 1 } else p]]
    ∧ ((rangeNeeds "c_euphonium" p).1 = true
        ↔ (p.octave < 2 ∨ (p.octave = 2 ∧ (p.step = Step.E ∨ p.step = Step.F))))
    ∧ ((rangeNeeds "eb_alto_sax" p).1 = true
        ↔ (p.octave > 5
            ∨ (p.octave = 5 ∧ p.step ∈ [Step.D, Step.E, Step.F, Step.G, Step.A, Step.B])
            ∨ (p.octave = 5 ∧ p.step = Step.C ∧ p.alter = 1)))
    ∧ (∀ q : NoteP, (rangeNeeds "c_euphonium" q).2 ≠ some Dir.down)
    ∧ (∀ instr : String, ∀ q : NoteP, instr ≠ "c_euphonium" →
        (rangeNeeds instr q).2 ≠ some Dir.up) := by
  refine ⟨?_, ?_, ?_, ?_, ?_, ?_⟩
  · rcases rangeNeeds_euph p with h | h <;> rw [singleton_transpose, h] <;> simp
  · rcases rangeNeeds_notEuph "eb_alto_sax" p (by decide) with h | h <;>
      rw [singleton_transpose, h] <;> simp
  · unfold rangeNeeds
    rw [if_pos (show (("c_euphonium" : String) == "c_euphonium") = true by decide)]
    by_cases h : p.octave < 2 ∨ (p.octave = 2 ∧ (p.step = Step.E ∨ p.step = Step.F))
    · rw [if_pos h]
      simpa using h
    · rw [if_neg h]
      simpa using h
  · unfold rangeNeeds
    rw [if_neg (show ¬ (("eb_alto_sax" : String) == "c_euphonium") = true by decide)]
    by_cases h : p.octave > 5
        ∨ (p.octave = 5 ∧ p.step ∈ [Step.D, Step.E, Step.F, Step.G, Step.A, Step.B])
        ∨ (p.octave = 5 ∧ p.step = Step.C ∧ p.alter = 1)
    · rw [if_pos h]
      simpa using h
    · rw [if_neg h]
      simpa using h
  · intro q
    rcases rangeNeeds_euph q with h | h <;> simp [h]
  · intro instr q hne
    rcases rangeNeeds_notEuph instr q (beq_eq_false_iff_ne.mpr hne) with h | h <;>
      simp [h]

/--
C3 (counterexample).  The constraint is not applied in both directions: a C2
written for alto saxophone lies far below the instrument's playable low bound
(the spec's safe range starts at Bb3) yet is returned unchanged — the
alto-sax branch only ever tests the high side; symmetrically a C8 written for
euphonium lies far above the top of the bass-clef staff range yet is returned
unchanged — the euphonium branch only ever tests the low side.
-/
theorem C3_hard_range_counterexample :
    transpose_high_notes_for_beginners "eb_alto_sax" [[⟨Step.C, 2, 0⟩]]
        = [[⟨Step.C, 2, 0⟩]]
    ∧ transpose_high_notes_for_beginners "c_euphonium" [[⟨Step.C, 8, 0⟩]]
        = [[⟨Step.C, 8, 0⟩]] := by
  decide

/--
C5 (amended).  The melodic-smoothing decision: below two notes the pass leaves
every decision untouched; otherwise every entry is revised independently by
`smoothStep`, which changes a decision only when the entry was not already
marked, its same-measure context (up to 3 notes each side) is nonempty, and
the maximal jump exceeds 7 semitones — marking a DOWN shift when the shifted
pitch stays at or above the configured floor and strictly shrinks the jump
(the 84 ceiling is NOT tested on this side), else an UP shift when the shifted
pitch stays at or below 84 and strictly shrinks the jump (the floor is NOT
tested on this side), else nothing.  The decisions are applied to the content
by looking up the FIRST entry with the same (step, octave, alter), so a shift
can leak to a same-pitched note in another measure (see the counterexample).
-/
theorem C5_smoothing (instr : String) (minMidi : Int) (notes : List NoteInfo)
    (i : Nat) (cur : NoteInfo) :
    (2 ≤ notes.length →
      apply_nearby_note_logic instr notes
        = notes.mapIdx (fun j n => smoothStep (minMidiFor instr) notes j n))
    ∧ (notes.length < 2 → apply_nearby_note_logic instr notes = notes)
    ∧ (smoothStep minMidi notes i cur = cur
      ∨ (cur.needs_transposition = false
        ∧ ctxMidis notes i cur ≠ []
        ∧ 7 < maxJump (midiOf cur) (ctxMidis notes i cur)
        ∧ ((smoothStep minMidi notes i cur
              = { cur with
                    needs_transposition := true,
                    transpose_direction := some Dir.down }
            ∧ minMidi ≤ midiOf cur - 12
            ∧ maxJump (midiOf cur - 12) (ctxMidis notes i cur)
                < maxJump (midiOf cur) (ctxMidis notes i cur))
          ∨ (smoothStep minMidi notes i cur
              = { cur with
                    needs_transposition := true,
                    transpose_direction := some Dir.up }
            ∧ midiOf cur + 12 ≤ 84
            ∧ maxJump (midiOf cur + 12) (ctxMidis notes i cur)
                < maxJump (midiOf cur) (ctxMidis notes i cur))))) := by
  refine ⟨?_, ?_, ?_⟩
  · intro hlen
    unfold apply_nearby_note_logic
    rw [if_neg (by omega)]
  · intro hlen
    unfold apply_nearby_note_logic
    rw [if_pos hlen]
  · unfold smoothStep
    by_cases h1 : cur.needs_transposition = true
    · rw [if_pos h1]
      exact Or.inl rfl
    · rw [if_neg h1]
      by_cases h2 : ctxMidis notes i cur = []
      · rw [if_pos h2]
        exact Or.inl rfl
      · rw [if_neg h2]
        by_cases h3 : 7 < maxJump (midiOf cur) (ctxMidis notes i cur)
        · rw [if_pos h3]
          by_cases h4 : minMidi ≤ midiOf cur - 12
              ∧ maxJump (midiOf cur - 12) (ctxMidis notes i cur)
                  < maxJump (midiOf cur) (ctxMidis notes i cur)
          · rw [if_pos h4]
            exact Or.inr ⟨by simpa using h1, h2, h3, Or.inl ⟨rfl, h4.1, h4.2⟩⟩
          · rw [if_neg h4]
            by_cases h5 : midiOf cur + 12 ≤ 84
                ∧ maxJump (midiOf cur + 12) (ctxMidis notes i cur)
                    < maxJump (midiOf cur) (ctxMidis notes i cur)
            · rw [if_pos h5]
              exact Or.inr ⟨by simpa using h1, h2, h3, Or.inr ⟨rfl, h5.1, h5.2⟩⟩
            · rw [if_neg h5]
              exact Or.inl rfl
        · rw [if_neg h3]
          exact Or.inl rfl

/--
C5 (counterexample).  The claim says a note with no same-measure context is
never shifted by the heuristic.  Content: measure 1 holds C5 then A5, measure
2 holds a lone C5.  The C5 of measure 1 is smoothing-marked UP (jump 9 to A5,
down fails the floor, up lands at 72 with jump 3); the C5 of measure 2 has no
same-measure context and is within the hard range, yet the content rewrite
looks decisions up by pitch alone, finds measure 1's marked entry first, and
shifts the lone C5 up an octave too.
-/
theorem C5_smoothing_counterexample :
    (rangeNeeds "eb_alto_sax" ⟨Step.C, 5, 0⟩).1 = false
    ∧ (buildNotesInfo "eb_alto_sax"
        [[⟨Step.C, 5, 0⟩, ⟨Step.A, 5, 0⟩], [⟨Step.C, 5, 0⟩]]).countP
          (fun n => n.measure_num == 2) = 1
    ∧ transpose_high_notes_for_beginners "eb_alto_sax"
        [[⟨Step.C, 5, 0⟩, ⟨Step.A, 5, 0⟩], [⟨Step.C, 5, 0⟩]]
      = [[⟨Step.C, 6, 0⟩, ⟨Step.A, 4, 0⟩], [⟨Step.C, 6, 0⟩]] := by
  decide

/-! ## Source-key transposition (`transpose_from_source_key`) -/

/-- `KEY_SIGNATURES`: key name to fifths. -/
def KEY_SIGNATURES : List (String × Int) :=
  [("c_major", 0), ("g_major", 1), ("d_major", 2), ("a_major", 3), ("e_major", 4),
   ("b_major", 5), ("fs_major", 6), ("cs_major", 7),
   ("f_major", -1), ("bb_major", -2), ("eb_major", -3), ("ab_major", -4),
   ("db_major", -5), ("gb_major", -6), ("cb_major", -7)]

/-- `transpose_chromatic` of each `INSTRUMENT_CORRECTIONS` profile. -/
def transposeChromatic : List (String × Int) :=
  [("bb_trumpet", -2), ("concert_pitch", 0), ("flute", 0), ("eb_alto_sax", -9),
   ("f_horn", -7), ("c_euphonium", 0), ("bb_clarinet", -2)]

/-- `fifths_change` of `transpose_from_source_key`: fixed values for 9, 2 and
-5 reversed semitones, floor-division approximation otherwise. -/
def fifthsChange (ts : Int) : Int :=
  if ts = 9 then 3
  else if ts = 2 then 2
  else if ts = -5 then -1
  else Int.fdiv (ts * 7) 12

/-- The written target fifths computed by `transpose_from_source_key`:
`none` when the instrument has no profile or the key name is unknown,
otherwise the source fifths plus the fifths change, CLAMPED into [-7, 7] by
`max(-7, min(7, x))`. -/
def targetWrittenFifths (source_key target_instrument : String) : Option Int :=
  match transposeChromatic.lookup target_instrument with
  | none => none
  | some tc =>
    match KEY_SIGNATURES.lookup source_key with
    | none => none
    | some sf => some (max (-7) (min 7 (sf + fifthsChange (-tc))))

/--
C4 (amended).  The two worked examples of the spec hold: from Bb major a
Bb-transposing instrument (reversed interval +2 semitones, fifths delta +2)
gets written fifths 0, and an Eb instrument (reversed +9, delta +3) gets +1;
the fixed delta table maps 9 semitones to +3 fifths, 2 to +2, -5 to -1 and 0
to 0.  But an out-of-range result is CLAMPED to the nearest of -7/7 by
`max(-7, min(7, x))`, not wrapped by 12 fifths-equivalents; and the F horn's
reversed interval (+7 semitones, a perfect fifth, not the claimed perfect
fourth) matches no fixed table entry and falls to the floor-division branch,
giving delta `(7 * 7) fdiv 12 = 4` instead of the musically correct +1.
-/
theorem C4_key_recomputation :
    targetWrittenFifths "bb_major" "bb_trumpet" = some 0
    ∧ targetWrittenFifths "bb_major" "eb_alto_sax" = some 1
    ∧ fifthsChange 9 = 3 ∧ fifthsChange 2 = 2
    ∧ fifthsChange (-5) = -1 ∧ fifthsChange 0 = 0
    ∧ fifthsChange 7 = 4
    ∧ (∀ sk instr : String, ∀ sf tc : Int,
        KEY_SIGNATURES.lookup sk = some sf →
        transposeChromatic.lookup instr = some tc →
        targetWrittenFifths sk instr
          = some (max (-7) (min 7 (sf + fifthsChange (-tc))))) := by
  refine ⟨by decide, by decide, by decide, by decide, by decide, by decide,
    by decide, ?_⟩
  intro sk instr sf tc hsk hinstr
  unfold targetWrittenFifths
  rw [hinstr, hsk]

/--
C4 (counterexample).  Source key C# major (fifths = 7) with a Bb trumpet
(delta +2) gives 9, out of range; the claim says out-of-range results are
brought back by subtracting 12 fifths-equivalents (9 - 12 = -3, Eb major),
but the code clamps with `max(-7, min(7, x))` and returns 7 — not -3.
-/
theorem C4_key_recomputation_counterexample :
    targetWrittenFifths "cs_major" "bb_trumpet" = some 7
    ∧ (7 : Int) + fifthsChange 2 - 12 = -3 := by
  decide

/-! ## Fingering annotation (`add_brass_fingerings_to_accidentals`,
`add_saxophone_fingerings`) -/

/-- `ALTO_SAX_FINGERINGS`: (step, alter, octave) to fingering text (the hole diagrams are carried alongside in the source and never decide whether a note is annotated). -/
def ALTO_SAX_FINGERINGS : List ((Step × Int × Int) × String) :=
  [((.B, -1, 3), "123 123C"), ((.B, 0, 3), "123 123"), ((.C, 0, 4), "123 12"),
   ((.C, 1, 4), "123 1"), ((.D, -1, 4), "123 1"), ((.D, 0, 4), "123"),
   ((.D, 1, 4), "12"), ((.E, -1, 4), "12"), ((.E, 0, 4), "1"),
   ((.F, 0, 4), "1 1"), ((.F, 1, 4), "123 12 LowC"), ((.G, -1, 4), "123 12 LowC"),
   ((.G, 0, 4), "T"), ((.G, 1, 4), "23 123"), ((.A, -1, 4), "23 123"),
   ((.A, 0, 4), "2 123"), ((.A, 1, 4), "2 12"), ((.B, -1, 4), "2 12"),
   ((.B, 0, 4), "2"), ((.C, 0, 5), "2 1"), ((.C, 1, 5), "Oct"),
   ((.D, -1, 5), "Oct"), ((.D, 0, 5), "123 123 Oct"), ((.D, 1, 5), "12 1 Oct"),
   ((.E, -1, 5), "12 1 Oct"), ((.E, 0, 5), "12 12 Oct"), ((.F, 0, 5), "1 12 Oct"),
   ((.F, 1, 5), "1 2 Oct"), ((.G, -1, 5), "1 2 Oct"), ((.G, 0, 5), "Oct"),
   ((.A, 0, 5), "2 123 Oct"), ((.B, 0, 5), "2 Oct")]

/-- `BB_TRUMPET_FINGERINGS`: (step, alter, octave) to valve combination. -/
def BB_TRUMPET_FINGERINGS : List ((Step × Int × Int) × String) :=
  [((.F, 1, 3), "2"), ((.G, 0, 3), "0"), ((.G, 1, 3), "23"),
   ((.A, -1, 3), "23"), ((.A, 0, 3), "12"), ((.A, 1, 3), "1"),
   ((.B, -1, 3), "1"), ((.B, 0, 3), "2"), ((.C, 0, 4), "0"),
   ((.C, 1, 4), "23"), ((.D, -1, 4), "23"), ((.D, 0, 4), "13"),
   ((.D, 1, 4), "2"), ((.E, -1, 4), "2"), ((.E, 0, 4), "12"),
   ((.F, 0, 4), "1"), ((.F, 1, 4), "2"), ((.G, -1, 4), "2"),
   ((.G, 0, 4), "0"), ((.G, 1, 4), "23"), ((.A, -1, 4), "23"),
   ((.A, 0, 4), "12"), ((.A, 1, 4), "1"), ((.B, -1, 4), "1"),
   ((.B, 0, 4), "2"), ((.C, 0, 5), "0"), ((.C, 1, 5), "23"),
   ((.D, -1, 5), "23"), ((.D, 0, 5), "13"), ((.D, 1, 5), "2"),
   ((.E, -1, 5), "2"), ((.E, 0, 5), "12"), ((.F, 0, 5), "1"),
   ((.F, 1, 5), "2"), ((.G, -1, 5), "2"), ((.G, 0, 5), "0")]

/-- `F_HORN_FINGERINGS`: (step, alter, octave) to valve combination. -/
def F_HORN_FINGERINGS : List ((Step × Int × Int) × String) :=
  [((.B, 0, 3), "123"), ((.C, 0, 4), "12"), ((.C, 1, 4), "2"),
   ((.D, -1, 4), "2"), ((.D, 0, 4), "1"), ((.D, 1, 4), "23"),
   ((.E, -1, 4), "23"), ((.E, 0, 4), "12"), ((.F, 0, 4), "1"),
   ((.F, 1, 4), "2"), ((.G, -1, 4), "2"), ((.G, 0, 4), "0"),
   ((.G, 1, 4), "23"), ((.A, -1, 4), "23"), ((.A, 0, 4), "12"),
   ((.A, 1, 4), "1"), ((.B, -1, 4), "1"), ((.B, 0, 4), "2"),
   ((.C, 0, 5), "0"), ((.C, 1, 5), "23"), ((.D, -1, 5), "23"),
   ((.D, 0, 5), "12"), ((.D, 1, 5), "1"), ((.E, -1, 5), "1"),
   ((.E, 0, 5), "2"), ((.F, 0, 5), "0"), ((.F, 1, 5), "23"),
   ((.G, -1, 5), "23"), ((.G, 0, 5), "12"), ((.G, 1, 5), "1"),
   ((.A, -1, 5), "1"), ((.A, 0, 5), "2"), ((.A, 1, 5), "0"),
   ((.B, -1, 5), "0"), ((.B, 0, 5), "23"), ((.C, 0, 6), "12")]

/-- `C_EUPHONIUM_FINGERINGS`: (step, alter, octave) to valve combination. -/
def C_EUPHONIUM_FINGERINGS : List ((Step × Int × Int) × String) :=
  [((.E, 0, 2), "123"), ((.F, 0, 2), "13"), ((.F, 1, 2), "23"),
   ((.G, -1, 2), "23"), ((.G, 0, 2), "12"), ((.G, 1, 2), "1"),
   ((.A, -1, 2), "1"), ((.A, 0, 2), "2"), ((.A, 1, 2), "0"),
   ((.B, -1, 2), "0"), ((.B, 0, 2), "123"), ((.C, 0, 3), "13"),
   ((.C, 1, 3), "23"), ((.D, -1, 3), "23"), ((.D, 0, 3), "12"),
   ((.D, 1, 3), "1"), ((.E, -1, 3), "1"), ((.E, 0, 3), "2"),
   ((.F, 0, 3), "0"), ((.F, 1, 3), "23"), ((.G, -1, 3), "23"),
   ((.G, 0, 3), "12"), ((.G, 1, 3), "1"), ((.A, -1, 3), "1"),
   ((.A, 0, 3), "2"), ((.A, 1, 3), "0"), ((.B, -1, 3), "0"),
   ((.B, 0, 3), "23"), ((.C, 0, 4), "12"), ((.C, 1, 4), "1"),
   ((.D, -1, 4), "1"), ((.D, 0, 4), "2"), ((.D, 1, 4), "0"),
   ((.E, -1, 4), "0"), ((.E, 0, 4), "23"), ((.F, 0, 4), "12"),
   ((.F, 1, 4), "1"), ((.G, -1, 4), "1"), ((.G, 0, 4), "2"),
   ((.G, 1, 4), "0"), ((.A, -1, 4), "0"), ((.A, 0, 4), "23"),
   ((.A, 1, 4), "12"), ((.B, -1, 4), "12"), ((.B, 0, 4), "1"),
   ((.C, 0, 5), "2"), ((.C, 1, 5), "0"), ((.D, -1, 5), "0"),
   ((.D, 0, 5), "23"), ((.D, 1, 5), "12"), ((.E, -1, 5), "12"),
   ((.E, 0, 5), "1"), ((.F, 0, 5), "2"), ((.F, 1, 5), "0"),
   ((.G, -1, 5), "0")]

/-- `familiar_notes` of `add_saxophone_fingerings`. -/
def familiar_notes : List (Step × Int × Int) :=
  [(.B, -1, 3), (.B, 0, 3), (.C, 0, 4), (.D, 0, 4), (.E, 0, 4),
   (.F, 0, 4), (.G, 0, 4), (.A, 0, 4), (.B, 0, 4), (.C, 0, 5)]

/-- A note as the fingering passes see it: the pitch tuple in chart-key order
`(step, alter, octave)`, the substring tests the passes make on the note text,
and the annotation a pass inserted (`none` on input). -/
structure NoteF where
  id : Nat := 0
  pitch : Option (Step × Int × Int) := none
  hasAccidental : Bool := false
  hasFingering : Bool := false
  hasTechnical : Bool := false
  fingeringAdded : Option String := none
deriving DecidableEq, Repr

/-- The brass chart selected for an instrument; `none` means
`add_brass_fingerings_to_accidentals` returns the content unchanged. -/
def brassChartFor (instr : String) : Option (List ((Step × Int × Int) × String)) :=
  if instr == "bb_trumpet" then some BB_TRUMPET_FINGERINGS
  else if instr == "f_horn" then some F_HORN_FINGERINGS
  else if instr == "c_euphonium" then some C_EUPHONIUM_FINGERINGS
  else none

/-- `add_trumpet_fingering_to_note`: skip notes that already contain
`<fingering>`; require a visible accidental; require a parsed pitch; annotate
exactly the chart hits. -/
def addBrassFingeringNote (chart : List ((Step × Int × Int) × String))
    (n : NoteF) : NoteF :=
  if n.hasFingering then n
  else if n.hasAccidental = false then n
  else match n.pitch with
    | none => n
    | some p =>
      match chart.lookup p with
      | some f => { n with
                      fingeringAdded := some f,
                      hasFingering := true,
                      hasTechnical := true }
      | none => n

/-- `add_brass_fingerings_to_accidentals` over the structured view. -/
def add_brass_fingerings_to_accidentals (instr : String)
    (notes : List NoteF) : List NoteF :=
  match brassChartFor instr with
  | none => notes
  | some chart => notes.map (addBrassFingeringNote chart)

/-- `add_fingering_to_note` of `add_saxophone_fingerings`: skip only when the
note text contains BOTH `<technical>` and `<fingering>`; require a parsed
pitch; require a chart hit; skip familiar notes; no accidental test. -/
def addSaxFingeringNote (n : NoteF) : NoteF :=
  if n.hasTechnical && n.hasFingering then n
  else match n.pitch with
    | none => n
    | some p =>
      match ALTO_SAX_FINGERINGS.lookup p with
      | none => n
      | some f =>
        if p ∈ familiar_notes then n
        else { n with
                 fingeringAdded := some f,
                 hasFingering := true,
                 hasTechnical := true }

/-- `add_saxophone_fingerings` over the structured view (the
`fingering_style` only shapes the inserted text, never whether a note is
annotated). -/
def add_saxophone_fingerings (notes : List NoteF) : List NoteF :=
  notes.map addSaxFingeringNote

/--
C7 (amended).  The BRASS pass annotates a note exactly when the note does not
already contain a fingering, carries a visible accidental, and its
(step, alter, octave) tuple is in the selected chart; an unknown instrument
leaves everything unchanged; a chart miss or an existing annotation is not an
error.  The SAXOPHONE pass, however, never tests for an accidental: it
annotates every note whose tuple is in the sax chart and not in the familiar
set, unless the note already contains both `<technical>` and `<fingering>` —
so "a note without a visible accidental is never annotated by any fingering
pass" fails for the saxophone pass (see the counterexample), and a note
carrying a fingering without a technical wrapper is annotated again.
-/
theorem C7_fingering_policy (instr : String) (n : NoteF)
    (hin : n.fingeringAdded = none) :
    (∀ chart, brassChartFor instr = some chart →
      ((addBrassFingeringNote chart n).fingeringAdded ≠ none ↔
        (n.hasFingering = false ∧ n.hasAccidental = true
          ∧ ∃ p f, n.pitch = some p ∧ chart.lookup p = some f)))
    ∧ (brassChartFor instr = none →
        add_brass_fingerings_to_accidentals instr [n] = [n])
    ∧ ((addSaxFingeringNote n).fingeringAdded ≠ none ↔
        ((n.hasTechnical && n.hasFingering) = false
          ∧ ∃ p f, n.pitch = some p ∧ ALTO_SAX_FINGERINGS.lookup p = some f
            ∧ p ∉ familiar_notes)) := by
  refine ⟨?_, ?_, ?_⟩
  · intro chart _
    unfold addBrassFingeringNote
    by_cases h1 : n.hasFingering = true
    · simp [h1, hin]
    · rw [if_neg h1]
      by_cases h2 : n.hasAccidental = false
      · rw [if_pos h2]
        simp [hin, h2, by simpa using h1]
      · rw [if_neg h2]
        cases hp : n.pitch with
        | none => simp [hin, hp]
        | some p =>
          cases hl : chart.lookup p with
          | none => simp [hin, hp, hl]
          | some f =>
            simp only [hp, hl]
            constructor
            · intro _
              exact ⟨by simpa using h1, by simpa using h2, p, f, rfl, hl⟩
            · intro _
              simp
  · intro hnone
    unfold add_brass_fingerings_to_accidentals
    rw [hnone]
  · unfold addSaxFingeringNote
    by_cases h1 : (n.hasTechnical && n.hasFingering) = true
    · simp [h1, hin]
    · rw [if_neg h1]
      cases hp : n.pitch with
      | none => simp [hin, hp]
      | some p =>
        cases hl : ALTO_SAX_FINGERINGS.lookup p with
        | none => simp [hin, hp, hl]
        | some f =>
          simp only [hp, hl]
          by_cases hf : p ∈ familiar_notes
          · rw [if_pos hf]
            simp only [hin]
            constructor
            · intro hc
              exact absurd rfl hc
            · rintro ⟨-, q, g, hq, -, hnf⟩
              cases hq
              exact absurd hf hnf
          · rw [if_neg hf]
            constructor
            · intro _
              exact ⟨by simpa using h1, p, f, rfl, hl, hf⟩
            · intro _
              simp

/--
C7 (witness).  A trumpet D5 with a visible accidental and no existing
fingering is annotated by the brass pass; the characterization applies.
-/
theorem C7_fingering_policy_witness :
    ((∀ chart, brassChartFor "bb_trumpet" = some chart →
      ((addBrassFingeringNote chart
          { pitch := some (.D, 0, 5), hasAccidental := true }).fingeringAdded ≠ none ↔
        (({ pitch := some (.D, 0, 5), hasAccidental := true } : NoteF).hasFingering = false
          ∧ ({ pitch := some (.D, 0, 5), hasAccidental := true } : NoteF).hasAccidental = true
          ∧ ∃ p f, ({ pitch := some (.D, 0, 5), hasAccidental := true } : NoteF).pitch = some p
              ∧ chart.lookup p = some f)))
    ∧ (brassChartFor "bb_trumpet" = none →
        add_brass_fingerings_to_accidentals "bb_trumpet"
          [{ pitch := some (.D, 0, 5), hasAccidental := true }]
          = [{ pitch := some (.D, 0, 5), hasAccidental := true }])
    ∧ ((addSaxFingeringNote
          { pitch := some (.D, 0, 5), hasAccidental := true }).fingeringAdded ≠ none ↔
        ((({ pitch := some (.D, 0, 5), hasAccidental := true } : NoteF).hasTechnical
            && ({ pitch := some (.D, 0, 5), hasAccidental := true } : NoteF).hasFingering) = false
          ∧ ∃ p f, ({ pitch := some (.D, 0, 5), hasAccidental := true } : NoteF).pitch = some p
              ∧ ALTO_SAX_FINGERINGS.lookup p = some f
              ∧ p ∉ familiar_notes))) :=
  C7_fingering_policy "bb_trumpet" { pitch := some (.D, 0, 5), hasAccidental := true } rfl

/--
C7 (counterexample).  A D5 with NO visible accidental: its tuple is in the
sax chart and not familiar, so `add_saxophone_fingerings` attaches
`123 123 Oct` to it — a note without a visible accidental annotated by a
fingering pass, refuting the claim's "never annotated by any fingering pass".
-/
theorem C7_fingering_policy_counterexample :
    ({ pitch := some (.D, 0, 5) } : NoteF).hasAccidental = false
    ∧ add_saxophone_fingerings [{ pitch := some (.D, 0, 5) }]
        = [{ pitch := some (.D, 0, 5), hasFingering := true, hasTechnical := true,
             fingeringAdded := some "123 123 Oct" }] := by
  decide

/-! ## Structural validation (`validate_xml_structure`) -/

/-- The output document as the validator sees it: the root tag, whether a
`part-list` child exists, and the measure count of each `part` child (XML
well-formedness is assumed; the parse-error path is out of scope). -/
structure ScoreDoc where
  rootTag : String
  hasPartList : Bool
  parts : List Nat
deriving DecidableEq, Repr

/-- `validate_xml_structure`: root must be `score-partwise`, a `part-list`
must exist, at least one `part`, and the FIRST part must contain a measure. -/
def validate_xml_structure (d : ScoreDoc) : Bool :=
  if d.rootTag != "score-partwise" then false
  else if !d.hasPartList then false
  else match d.parts with
    | [] => false
    | p0 :: _ => if p0 = 0 then false else true

/--
C9 (amended).  The validator invoked at the end of `simplify_file` accepts
exactly the documents with root `score-partwise`, a `part-list`, and a
nonempty FIRST part: measures are checked only in `parts[0]`, so emptiness of
any later part is not reported (see the counterexample; `simplify_file`
returns `False` exactly when this check fails, but only after the output file
has already been written).
-/
theorem C9_validation (d : ScoreDoc) :
    validate_xml_structure d = true ↔
      (d.rootTag = "score-partwise" ∧ d.hasPartList = true
        ∧ ∃ p0 rest, d.parts = p0 :: rest ∧ p0 ≠ 0) := by
  unfold validate_xml_structure
  by_cases h1 : d.rootTag = "score-partwise"
  · rw [if_neg (by simp [h1])]
    by_cases h2 : d.hasPartList = true
    · rw [if_neg (by simp [h2])]
      cases hp : d.parts with
      | nil => simp [h1, h2, hp]
      | cons p0 rest =>
        rw [show (match p0 :: rest with
            | [] => false
            | q :: _ => if q = 0 then false else true)
            = (if p0 = 0 then false else true) from rfl]
        by_cases h0 : p0 = 0
        · rw [if_pos h0]
          simp only [h0, hp]
          constructor
          · intro hc
            exact absurd hc (by simp)
          · rintro ⟨-, -, q, qs, hq, hne⟩
            cases hq
            exact absurd rfl hne
        · rw [if_neg h0]
          simp [h1, h2, hp, h0]
    · rw [if_pos (by simpa using h2)]
      simp [h2]
  · rw [if_pos (by simpa using h1)]
    simp [h1]

/--
C9 (counterexample).  A document whose second part holds no measure at all
passes the validator — "at least one measure per part" is checked for the
first part only.
-/
theorem C9_validation_counterexample :
    validate_xml_structure ⟨"score-partwise", true, [1, 0]⟩ = true
    ∧ (0 : Nat) ∈ (⟨"score-partwise", true, [1, 0]⟩ : ScoreDoc).parts := by
  decide

/-! ## Courtesy accidentals (`add_courtesy_accidentals`) -/

/-- A note as the courtesy pass sees it: the letter and alter of its pitch
(the octave is never read), whether the note text contains `<accidental`
(pass 1's written-accidental regex and pass 3's substring test coincide on
notes whose accidentals are complete elements), and the cautionary accidental
pass 3 inserted immediately after the `</pitch>` tag (`none` on input). -/
structure NoteC where
  id : Nat := 0
  pitch : Option (Step × Int) := none
  hasAccidental : Bool := false
  courtesy : Option String := none
deriving DecidableEq, Repr

/-- A measure element: its `number` attribute, the ids of any other
attributes on the opening tag, and its notes. -/
structure MeasureC where
  num : Nat
  extraAttrs : List Nat := []
  notes : List NoteC
deriving DecidableEq, Repr

/-- Per-letter entry of `note_history`. -/
structure LetterHist where
  first_sharp : Option Nat := none
  first_flat : Option Nat := none
  first_natural : Option Nat := none
  last_written : Option Nat := none
  needs : List Nat := []
deriving DecidableEq, Repr

/-- `instrument_home_keys[...]["flats"]` with the dict's default: only the
euphonium names home flats. -/
def homeFlats (instr : String) : List Step :=
  if instr == "c_euphonium" then [Step.B, Step.E] else []

/-- `instrument_home_keys[...]["sharps"]` with the dict's default: only the
alto sax names a home sharp. -/
def homeSharps (instr : String) : List Step :=
  if instr == "eb_alto_sax" then [Step.F] else []

/-- Point update of the history map. -/
def updH (h : Step → LetterHist) (l : Step) (v : LetterHist) : Step → LetterHist :=
  fun s => if s = l then v else h s

/-- Pass 1 on one pitched note: record first sharp/flat/natural per letter,
flag the measure "needs courtesy" for home-key hits, and remember the measure
of the latest written accidental. -/
def pass1Note (homeS homeF : List Step) (m : Nat) (h : LetterHist)
    (l : Step) (a : Int) (hasAcc : Bool) : LetterHist :=
  let h1 :=
    if a = 1 ∧ h.first_sharp = none then
      { h with
          first_sharp := some m,
          needs := if l ∈ homeS then m :: h.needs else h.needs }
    else if a = -1 ∧ h.first_flat = none then
      { h with
          first_flat := some m,
          needs := if l ∈ homeF then m :: h.needs else h.needs }
    else if a = 0 ∧ h.first_natural = none then
      { h with
          first_natural := some m,
          needs := if l ∈ homeS ∨ l ∈ homeF then m :: h.needs else h.needs }
    else h
  if hasAcc then { h1 with last_written := some m } else h1

/-- Pass 1 over the whole document. -/
def pass1 (homeS homeF : List Step) (ms : List MeasureC) : Step → LetterHist :=
  ms.foldl (fun h mc => mc.notes.foldl (fun h n =>
    match n.pitch with
    | some (l, a) => updH h l (pass1Note homeS homeF mc.num (h l) l a n.hasAccidental)
    | none => h) h) (fun _ => {})

/-- Pass 2 on one pitched note: the first note of a letter strictly after the
letter's last written accidental, in a measure not already flagged, flags its
measure and clears the marker.  (The `processed_notes` set of the source is
semantically inert: a repeated (letter, measure, alter) key reruns a body
whose condition can no longer hold, because pass 2 only ever clears
`last_written`.) -/
def pass2Note (m : Nat) (h : LetterHist) : LetterHist :=
  match h.last_written with
  | some lw =>
    if lw < m ∧ m ∉ h.needs then
      { h with needs := m :: h.needs, last_written := none }
    else h
  | none => h

/-- Pass 2 over the whole document. -/
def pass2 (hist : Step → LetterHist) (ms : List MeasureC) : Step → LetterHist :=
  ms.foldl (fun h mc => mc.notes.foldl (fun h n =>
    match n.pitch with
    | some (l, _) => updH h l (pass2Note mc.num (h l))
    | none => h) h) hist

/-- The cautionary type for an alter value; other alterations get none. -/
def courtesyFor (a : Int) : Option String :=
  if a = 1 then some "sharp"
  else if a = -1 then some "flat"
  else if a = 0 then some "natural"
  else none

/-- Pass 3 (`add_courtesy_to_note`) on one note, threading the per-measure
`courtesy_added_in_measure` set: skip notes with an accidental or without a
pitch; insert for flagged measures at most once per (letter, alter) — the
source adds the key to the set BEFORE checking that the alteration is one of
1, -1 or 0, so an exotic alteration consumes the key without inserting. -/
def pass3Note (hist : Step → LetterHist) (m : Nat) (added : List (Step × Int))
    (n : NoteC) : List (Step × Int) × NoteC :=
  if n.hasAccidental then (added, n)
  else match n.pitch with
  | none => (added, n)
  | some (l, a) =>
    if m ∈ (hist l).needs then
      if (l, a) ∈ added then (added, n)
      else match courtesyFor a with
        | some t => ((l, a) :: added, { n with courtesy := some t })
        | none => ((l, a) :: added, n)
    else (added, n)

/-- Pass 3 over the notes of one measure. -/
def pass3Go (hist : Step → LetterHist) (m : Nat) (added : List (Step × Int)) :
    List NoteC → List NoteC
  | [] => []
  | n :: rest =>
    (pass3Note hist m added n).2
      :: pass3Go hist m (pass3Note hist m added n).1 rest

/-- `process_measure_for_courtesy`: rewrite the notes and rebuild the measure
opening tag as exactly `<measure number="N">` — every other attribute is
dropped. -/
def process_measure_for_courtesy (hist : Step → LetterHist) (mc : MeasureC) : MeasureC :=
  { num := mc.num, extraAttrs := [], notes := pass3Go hist mc.num [] mc.notes }

/-- The history after passes 1 and 2. -/
def courtesyHist (instr : String) (ms : List MeasureC) : Step → LetterHist :=
  pass2 (pass1 (homeSharps instr) (homeFlats instr) ms) ms

/-- `add_courtesy_accidentals` over the structured view. -/
def add_courtesy_accidentals (instr : String) (ms : List MeasureC) : List MeasureC :=
  ms.map (process_measure_for_courtesy (courtesyHist instr ms))

/-- Fresh courtesy insertions for the triple (letter `l`, measure number `m`,
alter `a`) over a document. -/
def courtesyCount (out : List MeasureC) (m : Nat) (l : Step) (a : Int) : Nat :=
  (out.map (fun mc => if mc.num = m then
      mc.notes.countP (fun n => n.pitch == some (l, a) && n.courtesy != none)
    else 0)).sum

theorem pass3Note_cases (hist : Step → LetterHist) (m : Nat)
    (added : List (Step × Int)) (n : NoteC) :
    ((pass3Note hist m added n).1 = added ∧ (pass3Note hist m added n).2 = n)
    ∨ (∃ l a, n.pitch = some (l, a) ∧ n.hasAccidental = false
        ∧ (l, a) ∉ added ∧ m ∈ (hist l).needs
        ∧ (pass3Note hist m added n).1 = (l, a) :: added
        ∧ ((pass3Note hist m added n).2 = n
          ∨ ∃ t, courtesyFor a = some t
              ∧ (pass3Note hist m added n).2 = { n with courtesy := some t })) := by
  by_cases h1 : n.hasAccidental = true
  · left
    constructor <;> simp [pass3Note, h1]
  · cases hp : n.pitch with
    | none =>
      left
      constructor <;> simp [pass3Note, h1, hp]
    | some q =>
      obtain ⟨l, a⟩ := q
      by_cases h2 : m ∈ (hist l).needs
      · by_cases h3 : (l, a) ∈ added
        · left
          constructor <;> simp [pass3Note, h1, hp, h2, h3]
        · cases hc : courtesyFor a with
          | none =>
            refine Or.inr ⟨l, a, rfl, by simpa using h1, h3, h2, ?_, Or.inl ?_⟩ <;>
              simp [pass3Note, h1, hp, h2, h3, hc]
          | some t =>
            refine Or.inr ⟨l, a, rfl, by simpa using h1, h3, h2, ?_,
                Or.inr ⟨t, hc, ?_⟩⟩ <;>
              simp [pass3Note, h1, hp, h2, h3, hc]
      · left
        constructor <;> simp [pass3Note, h1, hp, h2]

theorem pass3Note_mono (hist : Step → LetterHist) (m : Nat)
    (added : List (Step × Int)) (n : NoteC) (x : Step × Int) (hx : x ∈ added) :
    x ∈ (pass3Note hist m added n).1 := by
  rcases pass3Note_cases hist m added n with ⟨h, -⟩ | ⟨l, a, -, -, -, -, h, -⟩ <;>
    rw [h] <;> simp [hx]

theorem pass3Go_count_zero (hist : Step → LetterHist) (m : Nat) (l : Step) (a : Int) :
    ∀ (ns : List NoteC) (added : List (Step × Int)),
    (∀ n ∈ ns, n.courtesy = none) → (l, a) ∈ added →
    (pass3Go hist m added ns).countP
      (fun n => n.pitch == some (l, a) && n.courtesy != none) = 0 := by
  intro ns
  induction ns with
  | nil => intro added _ _; rfl
  | cons n rest ih =>
    intro added hin hmem
    have hn0 : n.courtesy = none := hin n (by simp)
    have htail := ih (pass3Note hist m added n).1
      (fun x hx => hin x (by simp [hx]))
      (pass3Note_mono hist m added n (l, a) hmem)
    unfold pass3Go
    rw [List.countP_cons]
    rcases pass3Note_cases hist m added n with ⟨-, h2⟩ |
        ⟨l0, a0, hp, -, hnin, -, -, h2 | ⟨t, -, h2⟩⟩
    · rw [h2, htail]
      simp [hn0]
    · rw [h2, htail]
      simp [hn0]
    · rw [h2, htail]
      have hne : some (l0, a0) ≠ some (l, a) := by
        intro hc
        cases hc
        exact hnin hmem
      simp only [Nat.zero_add]
      rw [show (({ n with courtesy := some t } : NoteC).pitch == some (l, a)
          && ({ n with courtesy := some t } : NoteC).courtesy != none)
          = (n.pitch == some (l, a)) from by simp]
      rw [show (n.pitch == some (l, a)) = false from by
        rw [hp]; exact beq_eq_false_iff_ne.mpr hne]
      rfl

theorem pass3Go_count_le_one (hist : Step → LetterHist) (m : Nat) (l : Step) (a : Int) :
    ∀ (ns : List NoteC) (added : List (Step × Int)),
    (∀ n ∈ ns, n.courtesy = none) →
    (pass3Go hist m added ns).countP
      (fun n => n.pitch == some (l, a) && n.courtesy != none) ≤ 1 := by
  intro ns
  induction ns with
  | nil => intro added _; exact Nat.zero_le 1
  | cons n rest ih =>
    intro added hin
    have hn0 : n.courtesy = none := hin n (by simp)
    have hintail : ∀ x ∈ rest, x.courtesy = none := fun x hx => hin x (by simp [hx])
    unfold pass3Go
    rw [List.countP_cons]
    rcases pass3Note_cases hist m added n with ⟨-, h2⟩ |
        ⟨l0, a0, hp, -, -, -, h1, h2 | ⟨t, -, h2⟩⟩
    · rw [h2]
      have := ih (pass3Note hist m added n).1 hintail
      simp [hn0]
      omega
    · rw [h2]
      have := ih (pass3Note hist m added n).1 hintail
      simp [hn0]
      omega
    · rw [h2]
      by_cases heq : (l0, a0) = (l, a)
      · have h4 : l0 = l := congrArg Prod.fst heq
        have h5 : a0 = a := congrArg Prod.snd heq
        subst h4
        subst h5
        have hzero := pass3Go_count_zero hist m l0 a0 rest (pass3Note hist m added n).1
          hintail (by rw [h1]; simp)
        rw [hzero]
        simp [hp]
      · have := ih (pass3Note hist m added n).1 hintail
        have hne : some (l0, a0) ≠ some (l, a) := by
          intro hc
          cases hc
          exact heq rfl
        rw [show (({ n with courtesy := some t } : NoteC).pitch == some (l, a)
            && ({ n with courtesy := some t } : NoteC).courtesy != none)
            = (n.pitch == some (l, a)) from by simp]
        rw [show (n.pitch == some (l, a)) = false from by
          rw [hp]; exact beq_eq_false_iff_ne.mpr hne]
        simpa using this

theorem measures_sum_zero (m : Nat) (l : Step) (a : Int) :
    ∀ (out : List MeasureC), (∀ mc ∈ out, mc.num ≠ m) →
    (out.map (fun mc => if mc.num = m then
        mc.notes.countP (fun n => n.pitch == some (l, a) && n.courtesy != none)
      else 0)).sum = 0 := by
  intro out
  induction out with
  | nil => intro _; rfl
  | cons mc rest ih =>
    intro h
    simp only [List.map_cons, List.sum_cons]
    rw [if_neg (h mc (by simp)), ih (fun x hx => h x (by simp [hx]))]

theorem sum_le_one (hist : Step → LetterHist) (m : Nat) (l : Step) (a : Int) :
    ∀ (ms : List MeasureC), (ms.map (·.num)).Nodup →
    (∀ mc ∈ ms, ∀ n ∈ mc.notes, n.courtesy = none) →
    ((ms.map (process_measure_for_courtesy hist)).map (fun mc => if mc.num = m then
        mc.notes.countP (fun n => n.pitch == some (l, a) && n.courtesy != none)
      else 0)).sum ≤ 1 := by
  intro ms
  induction ms with
  | nil => intro _ _; exact Nat.zero_le 1
  | cons mc rest ih =>
    intro hnodup hin
    obtain ⟨hout, htail⟩ : (∀ x ∈ rest, ¬ x.num = mc.num)
        ∧ (List.map (fun x => x.num) rest).Nodup := by simpa using hnodup
    simp only [List.map_cons, List.sum_cons]
    by_cases hm : mc.num = m
    · rw [if_pos (show (process_measure_for_courtesy hist mc).num = m from hm)]
      have hhead := pass3Go_count_le_one hist mc.num l a mc.notes []
        (hin mc (by simp))
      have hrest : ((rest.map (process_measure_for_courtesy hist)).map
          (fun mc => if mc.num = m then
            mc.notes.countP (fun n => n.pitch == some (l, a) && n.courtesy != none)
          else 0)).sum = 0 := by
        apply measures_sum_zero
        intro mc2 hmc2
        obtain ⟨mc0, hmc0, rfl⟩ := List.mem_map.mp hmc2
        show mc0.num ≠ m
        intro hc
        exact hout mc0 hmc0 (hc.trans hm.symm)
      rw [hrest]
      have hcast : (process_measure_for_courtesy hist mc).notes.countP
          (fun n => n.pitch == some (l, a) && n.courtesy != none)
          = (pass3Go hist mc.num [] mc.notes).countP
            (fun n => n.pitch == some (l, a) && n.courtesy != none) := rfl
      rw [hcast]
      omega
    · rw [if_neg (show ¬ (process_measure_for_courtesy hist mc).num = m from hm)]
      have := ih htail (fun x hx => hin x (by simp [hx]))
      omega

theorem pass3Go_mem_courtesy (hist : Step → LetterHist) (m : Nat) :
    ∀ (ns : List NoteC) (added : List (Step × Int)),
    (∀ n ∈ ns, n.courtesy = none) →
    ∀ n2 ∈ pass3Go hist m added ns, n2.courtesy ≠ none →
      n2.hasAccidental = false ∧ ∃ l a t, n2.pitch = some (l, a)
        ∧ m ∈ (hist l).needs ∧ courtesyFor a = some t ∧ n2.courtesy = some t := by
  intro ns
  induction ns with
  | nil => intro added _ n2 hmem; simp [pass3Go] at hmem
  | cons n rest ih =>
    intro added hin n2 hmem hc2
    have hn0 : n.courtesy = none := hin n (by simp)
    rw [show pass3Go hist m added (n :: rest)
        = (pass3Note hist m added n).2
          :: pass3Go hist m (pass3Note hist m added n).1 rest from rfl] at hmem
    rcases List.mem_cons.mp hmem with rfl | htail
    · rcases pass3Note_cases hist m added n with ⟨-, h2⟩ |
          ⟨l, a, hp, hacc, -, hneeds, -, h2 | ⟨t, hct, h2⟩⟩
      · rw [h2] at hc2
        exact absurd hn0 hc2
      · rw [h2] at hc2
        exact absurd hn0 hc2
      · rw [h2]
        exact ⟨by simpa using hacc, l, a, t, by simpa using hp, hneeds, hct, rfl⟩
    · exact ih (pass3Note hist m added n).1 (fun x hx => hin x (by simp [hx]))
        n2 htail hc2

theorem pass3Go_length (hist : Step → LetterHist) (m : Nat) :
    ∀ (ns : List NoteC) (added : List (Step × Int)),
    (pass3Go hist m added ns).length = ns.length := by
  intro ns
  induction ns with
  | nil => intro _; rfl
  | cons n rest ih =>
    intro added
    rw [show pass3Go hist m added (n :: rest)
        = (pass3Note hist m added n).2
          :: pass3Go hist m (pass3Note hist m added n).1 rest from rfl]
    simp [ih]

/--
C6.  Courtesy uniqueness of `add_courtesy_accidentals`: on a document whose
measure numbers are unique (the spec's data model requires measure numbers to
be unique and increasing) and that carries no cautionary accidentals yet, the
pass inserts at most one courtesy accidental per (letter, measure number,
alteration) triple — pass 3 keys a per-measure set by (letter, alter) — and
every inserted cautionary accidental sits immediately after the pitch element
of a note that carries no accidental of its own, whose (letter, measure) pair
was flagged "needs courtesy" by the history passes, and whose alteration is
one of sharp, flat or natural.
-/
theorem C6_courtesy_uniqueness (instr : String) (ms : List MeasureC)
    (m : Nat) (l : Step) (a : Int)
    (hnodup : (ms.map (·.num)).Nodup)
    (hin : ∀ mc ∈ ms, ∀ n ∈ mc.notes, n.courtesy = none) :
    courtesyCount (add_courtesy_accidentals instr ms) m l a ≤ 1
    ∧ (∀ mc2 ∈ add_courtesy_accidentals instr ms, ∀ n2 ∈ mc2.notes,
        n2.courtesy ≠ none →
          n2.hasAccidental = false ∧ ∃ l0 a0 t, n2.pitch = some (l0, a0)
            ∧ mc2.num ∈ (courtesyHist instr ms l0).needs
            ∧ courtesyFor a0 = some t ∧ n2.courtesy = some t) := by
  constructor
  · unfold courtesyCount add_courtesy_accidentals
    exact sum_le_one (courtesyHist instr ms) m l a ms hnodup hin
  · intro mc2 hmc2 n2 hn2 hc2
    unfold add_courtesy_accidentals at hmc2
    obtain ⟨mc0, hmc0, rfl⟩ := List.mem_map.mp hmc2
    have hmem : n2 ∈ pass3Go (courtesyHist instr ms) mc0.num [] mc0.notes := hn2
    have := pass3Go_mem_courtesy (courtesyHist instr ms) mc0.num mc0.notes []
      (hin mc0 hmc0) n2 hmem hc2
    exact this

/--
C6 (witness).  A one-measure document with a single F-sharp note and no
cautionary accidentals: the uniqueness bound and the placement
characterization hold for the triple (F, measure 1, sharp).
-/
theorem C6_courtesy_uniqueness_witness :
    courtesyCount (add_courtesy_accidentals "bb_trumpet"
        [⟨1, [], [{ pitch := some (Step.F, 1) }]⟩]) 1 Step.F 1 ≤ 1
    ∧ (∀ mc2 ∈ add_courtesy_accidentals "bb_trumpet"
          [⟨1, [], [{ pitch := some (Step.F, 1) }]⟩], ∀ n2 ∈ mc2.notes,
        n2.courtesy ≠ none →
          n2.hasAccidental = false ∧ ∃ l0 a0 t, n2.pitch = some (l0, a0)
            ∧ mc2.num ∈ (courtesyHist "bb_trumpet"
                [⟨1, [], [{ pitch := some (Step.F, 1) }]⟩] l0).needs
            ∧ courtesyFor a0 = some t ∧ n2.courtesy = some t) :=
  C6_courtesy_uniqueness "bb_trumpet" [⟨1, [], [{ pitch := some (Step.F, 1) }]⟩]
    1 Step.F 1 (by decide) (by decide)

/--
C10 (implicit).  `process_measure_for_courtesy` rebuilds every measure's
opening tag as exactly `<measure number="N">`: the measure numbers and note
counts are preserved, and every attribute other than `number` (for example
`width`) is dropped from every measure of the output — also for measures in
which no courtesy accidental was inserted.
-/
theorem C10_measure_attributes (instr : String) (ms : List MeasureC) :
    (add_courtesy_accidentals instr ms).map (·.num) = ms.map (·.num)
    ∧ (∀ mc ∈ add_courtesy_accidentals instr ms, mc.extraAttrs = [])
    ∧ (add_courtesy_accidentals instr ms).map (fun mc => mc.notes.length)
        = ms.map (fun mc => mc.notes.length) := by
  refine ⟨?_, ?_, ?_⟩
  · unfold add_courtesy_accidentals
    rw [List.map_map]
    simp [process_measure_for_courtesy, Function.comp]
  · intro mc hmc
    unfold add_courtesy_accidentals at hmc
    obtain ⟨mc0, _, rfl⟩ := List.mem_map.mp hmc
    rfl
  · unfold add_courtesy_accidentals
    rw [List.map_map]
    simp [process_measure_for_courtesy, Function.comp, pass3Go_length]

end MusicXML
